import Mathlib

/-!
# ADS_set: a hash set with separate chaining

A shallow embedding of `src/ADS_set.h` and a verification of its specification.

Modelling conventions.

* A chain (`node*` followed through `next`) is the list of the keys it holds, head first;
  `nullptr` is the empty list. A pointer to a node is the non-empty suffix of its chain that
  starts at that node, so `n->key` is the first key of the list and `n->next` is its tail.
* The bucket array `table` is a list of chains; `table[idx].head` is `ADS_set.head`.
* `std::hash<Key>` is the parameter `hasher : Key → Nat`, `std::equal_to<Key>` is equality.
* The template parameter `N` is passed to the operations that read it.
* The member `max_lf` is read by no code and is not modelled.
* `size_type` counters are natural numbers: a counter never exceeds the number of live nodes
  plus one, so wrap-around is not reachable.
* `insert_`, `reserve` and `rehash` call one another. The call depth is bounded by a `fuel`
  argument and the result is `none` when that budget is used up; the theorems show that a
  budget of two is enough in every reachable state.
-/

namespace ADS

/-- The data members of `ADS_set<Key, N>`: the bucket array, `table_size` and `curr_size`. -/
structure ADS_set (Key : Type) where
  table : List (List Key)
  table_size : Nat
  curr_size : Nat
  deriving DecidableEq

/-- The data members of `ADS_set::Iterator` except `ptr`: the table `ptr` points to is passed
to the operations that read it. -/
structure Iterator (Key : Type) where
  n : List Key
  idx : Nat
  sz : Nat
  deriving DecidableEq

section Defs

variable {Key : Type} [DecidableEq Key] (hasher : Key → Nat)

/-- The read `table[idx].head`. -/
def ADS_set.head (t : ADS_set Key) (idx : Nat) : List Key :=
  t.table.getD idx []

/-- The private hash method `h`: `hasher{}(key) % table_size`. The source divides by zero when
`table_size` is 0, which a table of an `ADS_set<Key, 0>` has; the theorems are about `N ≥ 1`,
where `table_size` is never 0. -/
def ADS_set.h (t : ADS_set Key) (key : Key) : Nat :=
  hasher key % t.table_size

/-- The member `size()`. -/
def ADS_set.size (t : ADS_set Key) : Nat :=
  t.curr_size

/-- The member `empty()`. -/
def ADS_set.empty (t : ADS_set Key) : Bool :=
  t.curr_size == 0

/-- The member `end()`: `const_iterator(nullptr)`, with the defaults `idx = 0`, `sz = 0`. -/
def ADS_set.end_ : Iterator Key :=
  ⟨[], 0, 0⟩

/-- The chain walk of `count`: 1 at the first node whose key equals `key`, 0 at `nullptr`. -/
def countChain (key : Key) : List Key → Nat
  | [] => 0
  | k :: next => if k = key then 1 else countChain key next

/-- The member `count(key)`. -/
def ADS_set.count (t : ADS_set Key) (key : Key) : Nat :=
  countChain key (t.head (t.h hasher key))

/-- The chain walk of `find`: an iterator on the first node whose key equals `key`, or
`end()` when the walk reaches `nullptr`. -/
def ADS_set.findChain (t : ADS_set Key) (key : Key) (idx : Nat) : List Key → Iterator Key
  | [] => ADS_set.end_
  | k :: next => if k = key then ⟨k :: next, idx, t.table_size⟩ else t.findChain key idx next

/-- The member `find(key)`. -/
def ADS_set.find (t : ADS_set Key) (key : Key) : Iterator Key :=
  t.findChain key (t.h hasher key) (t.head (t.h hasher key))

/-- The loop of `begin()`: `it` runs over the `remaining` bucket indices below `table_size`
and stops at the first bucket whose head is not `nullptr`. -/
def ADS_set.beginLoop (t : ADS_set Key) : Nat → Nat → Iterator Key
  | 0, _ => ADS_set.end_
  | remaining + 1, it =>
    match t.head it with
    | [] => t.beginLoop remaining (it + 1)
    | k :: next => ⟨k :: next, it, t.table_size⟩

/-- The member `begin()`. -/
def ADS_set.begin (t : ADS_set Key) : Iterator Key :=
  t.beginLoop t.table_size 0

/-- The iterator's `operator*`: the key of the node, nothing at `nullptr`. -/
def Iterator.deref (it : Iterator Key) : Option Key :=
  it.n.head?

/-- The iterator's `operator==`, which compares the node pointers. Comparing the suffixes is
exact whenever one side is `nullptr` and whenever the table stores no key twice. -/
def Iterator.eq (lhs rhs : Iterator Key) : Bool :=
  lhs.n == rhs.n

/-- The iterator's `operator!=`. -/
def Iterator.ne (lhs rhs : Iterator Key) : Bool :=
  !(lhs.n == rhs.n)

/-- The `while (idx < sz)` loop of the prefix `operator++`. Every pass that does not return
increments `idx`, so `steps = sz - idx` passes are all the loop can make. -/
def Iterator.incLoop (t : ADS_set Key) : Nat → Iterator Key → Iterator Key
  | 0, it => it
  | steps + 1, it =>
    if it.idx < it.sz then
      match it.n.tail with
      | k :: next => { it with n := k :: next }
      | [] =>
        if it.idx + 1 = it.sz then { it with n := [], idx := it.idx + 1 }
        else
          match t.head (it.idx + 1) with
          | k :: next => { it with n := k :: next, idx := it.idx + 1 }
          | [] => Iterator.incLoop t steps { it with idx := it.idx + 1 }
    else it

/-- The iterator's prefix `operator++` on an iterator into the table `t`. -/
def Iterator.inc (t : ADS_set Key) (it : Iterator Key) : Iterator Key :=
  Iterator.incLoop t (it.sz - it.idx) it

/-- The iterator reached from `it` by `k` applications of `operator++`. -/
def Iterator.advance (t : ADS_set Key) : Nat → Iterator Key → Iterator Key
  | 0, it => it
  | k + 1, it => Iterator.advance t k (it.inc t)

/-- The loop `for (auto it = begin(); it != end(); ++it)` collecting the keys `*it`, as in
`main` and in every range-based `for` over a table. `none` when the iterator has not reached
`end()` after `steps` increments. -/
def ADS_set.iterate (t : ADS_set Key) : Nat → Iterator Key → Option (List Key)
  | 0, it => if it.ne ADS_set.end_ then none else some []
  | steps + 1, it =>
    if it.ne ADS_set.end_ then
      match it.deref with
      | some elem => (t.iterate steps (it.inc t)).map (fun rest => elem :: rest)
      | none => none
    else some []

/-- The keys a range-based `for` over `t` visits, in order. The walk is given one step per
stored node. -/
def ADS_set.range_for (t : ADS_set Key) : Option (List Key) :=
  t.iterate t.table.flatten.length t.begin

/-- The do-while loop of `reserve()`: `new_table_size = new_table_size * 2 + 1` while
`new_table_size * 2 < curr_size`. The value grows by at least one each pass, so `curr_size`
passes are all the loop can make. -/
def growLoop : Nat → Nat → Nat → Nat
  | 0, new_table_size, _ => new_table_size
  | steps + 1, new_table_size, curr_size =>
    if (new_table_size * 2 + 1) * 2 < curr_size then
      growLoop steps (new_table_size * 2 + 1) curr_size
    else new_table_size * 2 + 1

/-- The body of `rehash(n)`, with `ins` standing for the calls of `insert_`: collect the keys
of buckets `0 .. table_size - 1`, each chain head to tail, into `vect`; install `n` empty
buckets with `curr_size = 0`; insert the keys of `vect` in order. -/
def ADS_set.rehashWith (ins : ADS_set Key → Key → Option (ADS_set Key)) (t : ADS_set Key)
    (n : Nat) : Option (ADS_set Key) :=
  ((List.range t.table_size).flatMap (fun i => t.head i)).foldlM ins
    ⟨List.replicate n [], n, 0⟩

/-- The body of `reserve()`, with `ins` standing for the calls of `insert_` made by
`rehash`. -/
def ADS_set.reserveWith (ins : ADS_set Key → Key → Option (ADS_set Key)) (t : ADS_set Key) :
    Option (ADS_set Key) :=
  if t.table_size * 2 < t.curr_size then
    t.rehashWith ins (growLoop t.curr_size t.table_size t.curr_size)
  else some t

/-- The first statements of `insert_(key)`: a new node holding `key` becomes the head of the
chain of bucket `h(key)` and `curr_size` is incremented. -/
def ADS_set.prepend (t : ADS_set Key) (key : Key) : ADS_set Key :=
  { t with table := t.table.set (t.h hasher key) (key :: t.head (t.h hasher key)),
           curr_size := t.curr_size + 1 }

/-- The private `insert_(key)`: prepend a new node to the chain of bucket `h(key)`, increment
`curr_size`, and call `reserve()` when `table_size * 2 + 1 < curr_size`. The returned pointer
`table + idx` is used by no caller and is not modelled. `fuel` bounds the depth of the calls
`insert_ → reserve → rehash → insert_`. -/
def ADS_set.insert_ : Nat → ADS_set Key → Key → Option (ADS_set Key)
  | 0, _, _ => none
  | fuel + 1, t, key =>
    if (t.prepend hasher key).table_size * 2 + 1 < (t.prepend hasher key).curr_size then
      ADS_set.reserveWith (fun a k => ADS_set.insert_ fuel a k) (t.prepend hasher key)
    else some (t.prepend hasher key)

/-- The private `rehash(n)` as called from a frame that has `fuel` calls of depth left. -/
def ADS_set.rehash (fuel : Nat) (t : ADS_set Key) (n : Nat) : Option (ADS_set Key) :=
  t.rehashWith (fun a k => ADS_set.insert_ hasher fuel a k) n

/-- The private `reserve()` as called from a frame that has `fuel` calls of depth left. -/
def ADS_set.reserve (fuel : Nat) (t : ADS_set Key) : Option (ADS_set Key) :=
  t.reserveWith (fun a k => ADS_set.insert_ hasher fuel a k)

/-- The member `insert(const_reference key)`: the table afterwards and the returned pair. -/
def ADS_set.insert (fuel : Nat) (t : ADS_set Key) (key : Key) :
    Option (ADS_set Key × Iterator Key × Bool) :=
  if t.count hasher key = 0 then
    (t.insert_ hasher fuel key).map (fun t1 => (t1, t1.find hasher key, true))
  else some (t, t.find hasher key, false)

/-- The member `insert(std::initializer_list<key_type> ilist)`. -/
def ADS_set.insert_ilist (fuel : Nat) : ADS_set Key → List Key → Option (ADS_set Key)
  | t, [] => some t
  | t, elem :: rest =>
    if t.count hasher elem = 0 then
      (t.insert_ hasher fuel elem).bind (fun t1 => ADS_set.insert_ilist fuel t1 rest)
    else ADS_set.insert_ilist fuel t rest

/-- The member `insert(InputIt first, InputIt last)`; the range is the list of the keys
`*first`, ..., up to `last`. -/
def ADS_set.insert_range (fuel : Nat) : ADS_set Key → List Key → Option (ADS_set Key)
  | t, [] => some t
  | t, elem :: rest =>
    if t.count hasher elem = 0 then
      (t.insert_ hasher fuel elem).bind (fun t1 => ADS_set.insert_range fuel t1 rest)
    else ADS_set.insert_range fuel t rest

/-- The member `clear()`. -/
def ADS_set.clear (N : Nat) (_t : ADS_set Key) : ADS_set Key :=
  ⟨List.replicate N [], N, 0⟩

/-- The chain walk of `erase`: `before` holds the nodes already passed, nearest first, so
`elem_curr == table[idx].head` is `before = []` and `elem_prev` is the first of `before`.
The result is the chain after unlinking the first node whose key equals `key`; `none` when
the walk reaches `nullptr`. -/
def eraseLoop (key : Key) : List Key → List Key → Option (List Key)
  | _, [] => none
  | before, k :: next =>
    if k = key then
      match before with
      | [] => some next
      | prev :: earlier => some ((prev :: earlier).reverse ++ next)
    else eraseLoop key (k :: before) next

/-- The member `erase(key)`: the table afterwards and the returned count. -/
def ADS_set.erase (t : ADS_set Key) (key : Key) : ADS_set Key × Nat :=
  if t.count hasher key ≠ 0 then
    match eraseLoop key [] (t.head (t.h hasher key)) with
    | some chain =>
      ({ t with table := t.table.set (t.h hasher key) chain, curr_size := t.curr_size - 1 }, 1)
    | none => (t, 0)
  else (t, 0)

/-- The member `swap(other)`: the pair of `*this` and `other` afterwards. -/
def ADS_set.swap (t other : ADS_set Key) : ADS_set Key × ADS_set Key :=
  (⟨other.table, other.table_size, other.curr_size⟩, ⟨t.table, t.table_size, t.curr_size⟩)

/-- The default constructor: `rehash(N)` on the initial members `nullptr`, 0, 0. -/
def ADS_set.ctor (fuel N : Nat) : Option (ADS_set Key) :=
  ADS_set.rehash hasher fuel ⟨[], 0, 0⟩ N

/-- The initializer-list constructor. -/
def ADS_set.ctor_ilist (fuel N : Nat) (ilist : List Key) : Option (ADS_set Key) :=
  (ADS_set.ctor hasher fuel N).bind (fun t => t.insert_ilist hasher fuel ilist)

/-- The range constructor. -/
def ADS_set.ctor_range (fuel N : Nat) (range : List Key) : Option (ADS_set Key) :=
  (ADS_set.ctor hasher fuel N).bind (fun t => t.insert_range hasher fuel range)

/-- The copy constructor: default construction, then `insert_(elem)` for every `elem` the
range-based `for` over `other` visits. -/
def ADS_set.ctor_copy (fuel N : Nat) (other : ADS_set Key) : Option (ADS_set Key) :=
  (ADS_set.ctor hasher fuel N).bind (fun t =>
    other.range_for.bind (fun elems => elems.foldlM (fun a k => a.insert_ hasher fuel k) t))

/-- The copy assignment `operator=(const ADS_set &other)` for `other` an object different
from `*this`: `clear()`, then `insert(elem)` for every `elem` the range-based `for` over
`other` visits. -/
def ADS_set.assign (fuel N : Nat) (t other : ADS_set Key) : Option (ADS_set Key) :=
  other.range_for.bind (fun elems =>
    elems.foldlM (fun a k => (a.insert hasher fuel k).map (fun r => r.1)) (t.clear N))

/-- The assignment `operator=(std::initializer_list<key_type> ilist)`. -/
def ADS_set.assign_ilist (fuel N : Nat) (t : ADS_set Key) (ilist : List Key) :
    Option (ADS_set Key) :=
  (t.clear N).insert_ilist hasher fuel ilist

/-- The loop of the table's `operator==`: `false` at the first key of `lhs` that `rhs` does
not count, `true` when the iterator reaches `end()`; `none` when it has not after `steps`
increments. -/
def ADS_set.eqLoop (lhs rhs : ADS_set Key) : Nat → Iterator Key → Option Bool
  | 0, it => if it.ne ADS_set.end_ then none else some true
  | steps + 1, it =>
    if it.ne ADS_set.end_ then
      match it.deref with
      | some elem =>
        if rhs.count hasher elem = 0 then some false else lhs.eqLoop rhs steps (it.inc lhs)
      | none => none
    else some true

/-- The table's `operator==`. The walk over `lhs` is given one step per stored node. -/
def ADS_set.eq (lhs rhs : ADS_set Key) : Option Bool :=
  if lhs.curr_size ≠ rhs.curr_size then some false
  else lhs.eqLoop hasher rhs lhs.table.flatten.length lhs.begin

/-- The table's `operator!=`. -/
def ADS_set.ne (lhs rhs : ADS_set Key) : Option Bool :=
  (lhs.eq hasher rhs).map (fun r => !r)

/-- A call of `insert(key)` or of `erase(key)`. -/
inductive Call (Key : Type) where
  | insert (key : Key)
  | erase (key : Key)
  deriving DecidableEq

/-- The key a call mentions. -/
def Call.key : Call Key → Key
  | Call.insert key => key
  | Call.erase key => key

/-- Run a sequence of calls, first to last, on the table `t`. -/
def ADS_set.run (fuel : Nat) : ADS_set Key → List (Call Key) → Option (ADS_set Key)
  | t, [] => some t
  | t, Call.insert key :: rest =>
    (t.insert hasher fuel key).bind (fun r => ADS_set.run fuel r.1 rest)
  | t, Call.erase key :: rest => ADS_set.run fuel (t.erase hasher key).1 rest

/-- Whether the last call of the sequence that mentions `q` is an insert (`false` when no
call mentions `q`). -/
def lastIsInsert (q : Key) : List (Call Key) → Bool
  | [] => false
  | c :: rest =>
    if (rest.map Call.key).contains q then lastIsInsert q rest
    else
      match c with
      | Call.insert key => decide (key = q)
      | Call.erase _ => false

/-- The tables a program can hold in an `ADS_set<Key, N>` object: those produced by the
constructors and closed under the public mutating operations. -/
inductive Reachable (N : Nat) : ADS_set Key → Prop
  | ctor {fuel : Nat} {t : ADS_set Key} :
      ADS_set.ctor hasher fuel N = some t → Reachable N t
  | ctor_ilist {fuel : Nat} {ilist : List Key} {t : ADS_set Key} :
      ADS_set.ctor_ilist hasher fuel N ilist = some t → Reachable N t
  | ctor_range {fuel : Nat} {range : List Key} {t : ADS_set Key} :
      ADS_set.ctor_range hasher fuel N range = some t → Reachable N t
  | ctor_copy {fuel : Nat} {other t : ADS_set Key} :
      Reachable N other → ADS_set.ctor_copy hasher fuel N other = some t → Reachable N t
  | assign {fuel : Nat} {t other t1 : ADS_set Key} :
      Reachable N t → Reachable N other → t.assign hasher fuel N other = some t1 →
      Reachable N t1
  | assign_ilist {fuel : Nat} {t t1 : ADS_set Key} {ilist : List Key} :
      Reachable N t → t.assign_ilist hasher fuel N ilist = some t1 → Reachable N t1
  | insert {fuel : Nat} {t : ADS_set Key} {key : Key} {r : ADS_set Key × Iterator Key × Bool} :
      Reachable N t → t.insert hasher fuel key = some r → Reachable N r.1
  | insert_ilist {fuel : Nat} {t t1 : ADS_set Key} {ilist : List Key} :
      Reachable N t → t.insert_ilist hasher fuel ilist = some t1 → Reachable N t1
  | insert_range {fuel : Nat} {t t1 : ADS_set Key} {range : List Key} :
      Reachable N t → t.insert_range hasher fuel range = some t1 → Reachable N t1
  | clear {t : ADS_set Key} : Reachable N t → Reachable N (t.clear N)
  | erase {t : ADS_set Key} {key : Key} : Reachable N t → Reachable N (t.erase hasher key).1
  | swap {t other : ADS_set Key} :
      Reachable N t → Reachable N other → Reachable N (t.swap other).1

/-- All stored keys: the chains of the bucket array, bucket 0 first, each head to tail. -/
def ADS_set.keys (t : ADS_set Key) : List Key :=
  t.table.flatten

/-- The structural invariant of the table: the bucket array has `table_size` buckets, there is
at least one, every key of bucket `i` hashes to `i` under the current `table_size`, no key is
stored twice, and `curr_size` counts the stored nodes. -/
structure WF (t : ADS_set Key) : Prop where
  len : t.table.length = t.table_size
  pos : 0 < t.table_size
  hashed : ∀ i k, k ∈ t.head i → hasher k % t.table_size = i
  nodup : t.keys.Nodup
  size : t.curr_size = t.keys.length

/-- The invariant of the reachable tables of an `ADS_set<Key, N>`: the structural invariant,
the load bound left by the growth trigger, and a capacity of at least `N`. -/
structure Inv (N : Nat) (t : ADS_set Key) : Prop where
  wf : WF hasher t
  load : t.curr_size ≤ 2 * t.table_size + 1
  cap : N ≤ t.table_size

/-- The keys from the node of `it` to the end of the table `t`: the rest of the chain of `it`,
then the chains of the later buckets. Empty for an iterator whose node is `nullptr`. -/
def Iterator.remaining (t : ADS_set Key) (it : Iterator Key) : List Key :=
  match it.n with
  | [] => []
  | k :: next => k :: next ++ (t.table.drop (it.idx + 1)).flatten

/-- An iterator into `t` is either at `nullptr` or carries a bucket index below its `sz`, and
`sz` is the number of buckets of `t`. -/
def Iterator.Valid (t : ADS_set Key) (it : Iterator Key) : Prop :=
  it.n = [] ∨ (it.sz = t.table.length ∧ it.idx < it.sz)

/-- The hash of an unsigned integer key as libstdc++ computes it: the key itself. -/
def idHash : Nat → Nat :=
  fun k => k

/-- The loop of `operator=(const ADS_set &other)` when `other` is `*this`: the iterator walks
the table that the body `insert(elem)` is changing. `none` when the iterator has not reached
`end()` after `steps` passes. -/
def ADS_set.assignSelfLoop (fuel : Nat) : Nat → ADS_set Key → Iterator Key → Option (ADS_set Key)
  | 0, t, it => if it.ne ADS_set.end_ then none else some t
  | steps + 1, t, it =>
    if it.ne ADS_set.end_ then
      match it.deref with
      | some elem =>
        (t.insert hasher fuel elem).bind
          (fun r => ADS_set.assignSelfLoop fuel steps r.1 (it.inc r.1))
      | none => none
    else some t

/-- The self-assignment `a = a`: `clear()`, then the loop over `other`, which is the table
`clear()` has just left. -/
def ADS_set.assign_self (fuel steps N : Nat) (t : ADS_set Key) : Option (ADS_set Key) :=
  ADS_set.assignSelfLoop hasher fuel steps (t.clear N) (t.clear N).begin

/-- The capacity sequence of the growth policy as the specification words it: starting from
the capacity `c`, each term is twice the previous one plus one, so the terms after `c` are
`2c+1`, `2(2c+1)+1`, ... -/
def growthTerm (c : Nat) : Nat → Nat
  | 0 => c
  | j + 1 => 2 * growthTerm c j + 1

/-- The structural invariant as the specification words it: every stored key lies in the
chain of bucket `hash(key) mod capacity`, no two stored entries hold equal keys, and `size`
is the total number of entries over all chains. -/
def ADS_set.Structural (t : ADS_set Key) : Prop :=
  (∀ i k, k ∈ t.head i → t.h hasher k = i) ∧ t.keys.Nodup ∧
    t.size = (t.table.map List.length).sum

/-- The capacities of the form `2^k * (N + 1) - 1`. -/
def CapForm (N c : Nat) : Prop :=
  ∃ k, c + 1 = 2 ^ k * (N + 1)

/-- The table that `rehash(n)` holds after installing `n` empty buckets and linking the keys
`vect` in order, each as the new head of its chain, with no call of `reserve()`. -/
def ADS_set.reinserted (n : Nat) (vect : List Key) : ADS_set Key :=
  vect.foldl (fun a k => a.prepend hasher k) ⟨List.replicate n [], n, 0⟩

end Defs

section Lemmas

set_option linter.unusedSectionVars false

variable {Key : Type} [DecidableEq Key] (hasher : Key → Nat)

theorem countChain_eq (key : Key) (l : List Key) :
    countChain key l = if key ∈ l then 1 else 0 := by
  induction l with
  | nil => simp [countChain]
  | cons k next ih =>
    by_cases hk : k = key
    · simp [countChain, hk]
    · have hk2 : ¬ key = k := fun e => hk e.symm
      simp [countChain, hk, hk2, ih]

theorem getD_set_nil (l : List (List Key)) (i j : Nat) (c : List Key) :
    (l.set i c).getD j [] = if i = j ∧ i < l.length then c else l.getD j [] := by
  simp only [List.getD_eq_getElem?_getD, List.getElem?_set]
  by_cases hij : i = j
  · subst hij
    by_cases hi : i < l.length
    · simp [hi]
    · simp [hi, List.getElem?_eq_none (Nat.le_of_not_lt hi)]
  · simp [hij]

theorem flatten_perm_of_set (l : List (List Key)) (i : Nat) (k : Key) (c : List Key)
    (hi : i < l.length) (hc : (l.getD i []).Perm (k :: c)) :
    l.flatten.Perm (k :: (l.set i c).flatten) := by
  have h1 : l = l.take i ++ l.getD i [] :: l.drop (i + 1) := by
    rw [List.getD_eq_getElem l [] hi, List.getElem_cons_drop, List.take_append_drop]
  have h2 : l.set i c = l.take i ++ c :: l.drop (i + 1) :=
    List.set_eq_take_append_cons_drop.trans (by simp [hi])
  rw [h2]
  conv_lhs => rw [h1]
  simp only [List.flatten_append, List.flatten_cons]
  have h3 : (l.getD i [] ++ (l.drop (i + 1)).flatten).Perm
      (k :: (c ++ (l.drop (i + 1)).flatten)) := by
    have := List.Perm.append_right (l.drop (i + 1)).flatten hc
    simpa using this
  exact (List.Perm.append_left _ h3).trans List.perm_middle

theorem mem_flatten_iff_getD (l : List (List Key)) (k : Key) :
    k ∈ l.flatten ↔ ∃ i, k ∈ l.getD i [] := by
  constructor
  · intro h
    obtain ⟨c, hc, hk⟩ := List.mem_flatten.mp h
    obtain ⟨i, hi, rfl⟩ := List.getElem_of_mem hc
    exact ⟨i, by rw [List.getD_eq_getElem l [] hi]; exact hk⟩
  · rintro ⟨i, hk⟩
    by_cases hi : i < l.length
    · rw [List.getD_eq_getElem l [] hi] at hk
      exact List.mem_flatten.mpr ⟨l[i], List.getElem_mem hi, hk⟩
    · rw [List.getD_eq_default l [] (Nat.le_of_not_lt hi)] at hk
      simp at hk

theorem WF.mem_keys_iff {t : ADS_set Key} (hw : WF hasher t) (k : Key) :
    k ∈ t.keys ↔ k ∈ t.head (t.h hasher k) := by
  unfold ADS_set.keys
  rw [mem_flatten_iff_getD]
  constructor
  · rintro ⟨i, hk⟩
    have := hw.hashed i k hk
    unfold ADS_set.h
    rw [this]
    exact hk
  · intro hk
    exact ⟨_, hk⟩

theorem WF.count_eq {t : ADS_set Key} (hw : WF hasher t) (k : Key) :
    t.count hasher k = if k ∈ t.keys then 1 else 0 := by
  unfold ADS_set.count
  rw [countChain_eq]
  by_cases hk : k ∈ t.keys
  · simp [hk, (hw.mem_keys_iff hasher k).mp hk]
  · have : k ∉ t.head (t.h hasher k) := fun h => hk ((hw.mem_keys_iff hasher k).mpr h)
    simp [hk, this]

theorem WF.count_eq_zero_iff {t : ADS_set Key} (hw : WF hasher t) (k : Key) :
    t.count hasher k = 0 ↔ k ∉ t.keys := by
  rw [hw.count_eq hasher k]
  by_cases hk : k ∈ t.keys <;> simp [hk]

theorem WF.count_eq_one_iff {t : ADS_set Key} (hw : WF hasher t) (k : Key) :
    t.count hasher k = 1 ↔ k ∈ t.keys := by
  rw [hw.count_eq hasher k]
  by_cases hk : k ∈ t.keys <;> simp [hk]

theorem WF.h_lt {t : ADS_set Key} (hw : WF hasher t) (k : Key) :
    t.h hasher k < t.table.length := by
  rw [hw.len]
  exact Nat.mod_lt _ hw.pos

theorem WF.keys_prepend {t : ADS_set Key} (hw : WF hasher t) (key : Key) :
    (t.prepend hasher key).keys.Perm (key :: t.keys) := by
  have hlt := hw.h_lt hasher key
  have h := flatten_perm_of_set (t.prepend hasher key).table (t.h hasher key) key
    (t.head (t.h hasher key)) (by simpa [ADS_set.prepend] using hlt)
    (by simp [ADS_set.prepend, getD_set_nil, hlt, ADS_set.head])
  have h2 : (t.prepend hasher key).table.set (t.h hasher key) (t.head (t.h hasher key))
      = t.table := by
    simp only [ADS_set.prepend, List.set_set, ADS_set.head]
    apply List.ext_getElem?
    intro j
    rw [List.getElem?_set]
    by_cases hj : t.h hasher key = j
    · subst hj
      simp [hlt, List.getD_eq_getElem _ _ hlt]
    · simp [hj]
  rw [h2] at h
  exact h

theorem WF.prepend {t : ADS_set Key} (hw : WF hasher t) {key : Key} (hk : key ∉ t.keys) :
    WF hasher (t.prepend hasher key) := by
  have hp := hw.keys_prepend hasher key
  refine ⟨?_, ?_, ?_, ?_, ?_⟩
  · simpa [ADS_set.prepend] using hw.len
  · simpa [ADS_set.prepend] using hw.pos
  · intro i k hmem
    simp only [ADS_set.prepend, ADS_set.head, getD_set_nil] at hmem
    show hasher k % t.table_size = i
    split at hmem
    · rename_i hc
      rcases List.mem_cons.mp hmem with rfl | h
      · exact hc.1
      · rw [← hc.1]
        exact hw.hashed _ k h
    · exact hw.hashed i k hmem
  · exact hp.nodup_iff.mpr (List.nodup_cons.mpr ⟨hk, hw.nodup⟩)
  · show t.curr_size + 1 = _
    rw [hp.length_eq, hw.size]
    rfl

theorem flatMap_head_eq_keys {t : ADS_set Key} (hlen : t.table.length = t.table_size) :
    (List.range t.table_size).flatMap (fun i => t.head i) = t.keys := by
  have hmap : (List.range t.table_size).map (fun i => t.head i) = t.table := by
    apply List.ext_getElem
    · simp [hlen]
    · intro i h1 h2
      simp [ADS_set.head, List.getElem?_eq_getElem h2]
  rw [List.flatMap_def, hmap]
  rfl

theorem insert__succ (fuel : Nat) (t : ADS_set Key) (key : Key) :
    t.insert_ hasher (fuel + 1) key
      = if (t.prepend hasher key).table_size * 2 + 1 < (t.prepend hasher key).curr_size then
          (t.prepend hasher key).reserve hasher fuel
        else some (t.prepend hasher key) := by
  rw [ADS_set.insert_]
  rfl

theorem reserve_eq (fuel : Nat) (t : ADS_set Key) :
    t.reserve hasher fuel
      = if t.table_size * 2 < t.curr_size then
          t.rehash hasher fuel (growLoop t.curr_size t.table_size t.curr_size)
        else some t :=
  rfl

theorem insert__of_not_grow (f : Nat) (t : ADS_set Key) (key : Key)
    (h : t.curr_size < 2 * t.table_size + 1) :
    t.insert_ hasher (f + 1) key = some (t.prepend hasher key) := by
  have : ¬ ((t.prepend hasher key).table_size * 2 + 1 < (t.prepend hasher key).curr_size) := by
    simp only [ADS_set.prepend]
    omega
  simp [ADS_set.insert_, this]

theorem foldl_prepend_sizes (vect : List Key) (t0 : ADS_set Key) :
    (vect.foldl (fun a k => a.prepend hasher k) t0).table_size = t0.table_size ∧
    (vect.foldl (fun a k => a.prepend hasher k) t0).curr_size = t0.curr_size + vect.length := by
  induction vect generalizing t0 with
  | nil => simp
  | cons k rest ih =>
    obtain ⟨h1, h2⟩ := ih (t0.prepend hasher k)
    simp only [List.foldl_cons, h1, h2, List.length_cons]
    have e1 : (t0.prepend hasher k).table_size = t0.table_size := rfl
    have e2 : (t0.prepend hasher k).curr_size = t0.curr_size + 1 := rfl
    omega

theorem foldlM_insert__eq (f : Nat) (vect : List Key) (t0 : ADS_set Key)
    (h : t0.curr_size + vect.length ≤ 2 * t0.table_size + 1) :
    vect.foldlM (fun a k => ADS_set.insert_ hasher (f + 1) a k) t0
      = some (vect.foldl (fun a k => a.prepend hasher k) t0) := by
  induction vect generalizing t0 with
  | nil => rfl
  | cons k rest ih =>
    simp only [List.length_cons] at h
    rw [List.foldlM_cons, insert__of_not_grow hasher f t0 k (by omega)]
    simp only [List.foldl_cons]
    have := ih (t0.prepend hasher k) (by simp only [ADS_set.prepend]; omega)
    simpa using this

theorem WF.foldl_prepend (vect : List Key) {t0 : ADS_set Key} (hw : WF hasher t0)
    (hnd : vect.Nodup) (hdis : ∀ k ∈ vect, k ∉ t0.keys) :
    WF hasher (vect.foldl (fun a k => a.prepend hasher k) t0) ∧
    (vect.foldl (fun a k => a.prepend hasher k) t0).keys.Perm (vect ++ t0.keys) := by
  induction vect generalizing t0 with
  | nil => exact ⟨hw, List.Perm.refl _⟩
  | cons k rest ih =>
    have hk : k ∉ t0.keys := hdis k (List.mem_cons_self _ _)
    have hp := hw.keys_prepend hasher k
    obtain ⟨hnk, hndr⟩ := List.nodup_cons.mp hnd
    have hdis2 : ∀ q ∈ rest, q ∉ (t0.prepend hasher k).keys := by
      intro q hq hmem
      rcases List.mem_cons.mp (hp.subset hmem) with rfl | h
      · exact hnk hq
      · exact hdis q (List.mem_cons_of_mem _ hq) h
    obtain ⟨h1, h2⟩ := ih (hw.prepend hasher hk) hndr hdis2
    refine ⟨h1, h2.trans ?_⟩
    exact ((List.Perm.append_left rest hp).trans List.perm_middle)

theorem WF.fresh_wf {n : Nat} (hn : 0 < n) :
    WF hasher (⟨List.replicate n [], n, 0⟩ : ADS_set Key) := by
  refine ⟨by simp, hn, ?_, ?_, ?_⟩
  · intro i k hmem
    simp only [ADS_set.head, List.getD_eq_getElem?_getD, List.getElem?_replicate] at hmem
    split at hmem <;> simp at hmem
  · simp [ADS_set.keys]
  · simp [ADS_set.keys]

theorem growLoop_exit (steps new_table_size curr_size : Nat)
    (hsteps : 0 < steps) (h : curr_size ≤ new_table_size + steps) :
    ¬ (growLoop steps new_table_size curr_size * 2 < curr_size) := by
  induction steps generalizing new_table_size with
  | zero => omega
  | succ s ih =>
    rw [growLoop]
    split
    · rename_i hc
      exact ih (new_table_size * 2 + 1) (by omega) (by omega)
    · rename_i hc
      exact hc

theorem growLoop_once (c : Nat) : growLoop (2 * c + 2) c (2 * c + 2) = 2 * c + 1 := by
  have : ¬ ((c * 2 + 1) * 2 < 2 * c + 2) := by omega
  simp [growLoop, this]
  omega

theorem insert__eq {N : Nat} {t : ADS_set Key} (hi : Inv hasher N t) (key : Key) (f : Nat) :
    t.insert_ hasher (f + 2) key = some
      (if t.curr_size < 2 * t.table_size + 1 then t.prepend hasher key
       else (t.prepend hasher key).keys.foldl (fun a k => a.prepend hasher k)
         ⟨List.replicate (2 * t.table_size + 1) [], 2 * t.table_size + 1, 0⟩) := by
  by_cases h : t.curr_size < 2 * t.table_size + 1
  · rw [insert__of_not_grow hasher (f + 1) t key h]
    simp [h]
  · have hs : t.curr_size = 2 * t.table_size + 1 := by have := hi.load; omega
    have hplen : (t.prepend hasher key).table.length = (t.prepend hasher key).table_size := by
      simpa [ADS_set.prepend] using hi.wf.len
    have hkl : (t.prepend hasher key).keys.length = 2 * t.table_size + 2 := by
      rw [(hi.wf.keys_prepend hasher key).length_eq, List.length_cons, ← hi.wf.size, hs]
    have hts : (t.prepend hasher key).table_size = t.table_size := rfl
    have hcs : (t.prepend hasher key).curr_size = 2 * t.table_size + 2 := by
      show t.curr_size + 1 = _
      omega
    have h1 : (t.prepend hasher key).table_size * 2 + 1 < (t.prepend hasher key).curr_size := by
      rw [hts, hcs]; omega
    have h2 : (t.prepend hasher key).table_size * 2 < (t.prepend hasher key).curr_size := by
      rw [hts, hcs]; omega
    rw [if_neg h]
    simp only [ADS_set.insert_, if_pos h1, ADS_set.reserveWith, if_pos h2, ADS_set.rehashWith]
    rw [flatMap_head_eq_keys hplen, hts, hcs, growLoop_once]
    exact foldlM_insert__eq hasher f _ _ (by simp only [hkl]; omega)

theorem foldlM_option_mono {σ α : Type} (ins ins2 : σ → α → Option σ)
    (h : ∀ a k r, ins a k = some r → ins2 a k = some r) (l : List α) (a r : σ)
    (hr : l.foldlM ins a = some r) : l.foldlM ins2 a = some r := by
  induction l generalizing a with
  | nil => simpa using hr
  | cons k rest ih =>
    rw [List.foldlM_cons] at hr ⊢
    cases hk : ins a k with
    | none => rw [hk] at hr; simp at hr
    | some a1 =>
      rw [hk] at hr
      rw [h a k a1 hk]
      exact ih a1 hr

theorem insert__mono (fuel : Nat) (t t1 : ADS_set Key) (key : Key)
    (h : t.insert_ hasher fuel key = some t1) : t.insert_ hasher (fuel + 1) key = some t1 := by
  induction fuel generalizing t t1 key with
  | zero => simp [ADS_set.insert_] at h
  | succ f ih =>
    rw [ADS_set.insert_] at h ⊢
    split
    · rename_i hc
      rw [if_pos hc] at h
      unfold ADS_set.reserveWith at h ⊢
      split
      · rename_i hc2
        rw [if_pos hc2] at h
        unfold ADS_set.rehashWith at h ⊢
        exact foldlM_option_mono _ _ (fun a k r hr => ih a r k hr) _ _ _ h
      · rename_i hc2
        rw [if_neg hc2] at h
        exact h
    · rename_i hc
      rw [if_neg hc] at h
      exact h

theorem insert__mono_le {fuel fuel2 : Nat} (hle : fuel ≤ fuel2) (t t1 : ADS_set Key) (key : Key)
    (h : t.insert_ hasher fuel key = some t1) : t.insert_ hasher fuel2 key = some t1 := by
  induction hle with
  | refl => exact h
  | step _ ih => exact insert__mono hasher _ _ _ _ ih

theorem Inv.insert_ {N : Nat} {t : ADS_set Key} (hi : Inv hasher N t) {key : Key}
    (hk : key ∉ t.keys) (f : Nat) :
    ∃ t1, t.insert_ hasher (f + 2) key = some t1 ∧ Inv hasher N t1 ∧
      t1.keys.Perm (key :: t.keys) ∧ t1.curr_size = t.curr_size + 1 ∧
      t.table_size ≤ t1.table_size := by
  refine ⟨_, insert__eq hasher hi key f, ?_⟩
  have hp := hi.wf.keys_prepend hasher key
  have hwp := hi.wf.prepend hasher hk
  by_cases h : t.curr_size < 2 * t.table_size + 1
  · rw [if_pos h]
    refine ⟨⟨hwp, ?_, hi.cap⟩, hp, rfl, Nat.le_refl _⟩
    show t.curr_size + 1 ≤ 2 * t.table_size + 1
    omega
  · rw [if_neg h]
    have hs : t.curr_size = 2 * t.table_size + 1 := by have := hi.load; omega
    have hfresh : WF hasher (⟨List.replicate (2 * t.table_size + 1) [],
        2 * t.table_size + 1, 0⟩ : ADS_set Key) := WF.fresh_wf hasher (by omega)
    obtain ⟨hw2, hp2⟩ := WF.foldl_prepend hasher (t.prepend hasher key).keys hfresh hwp.nodup
      (by intro k _; simp [ADS_set.keys])
    obtain ⟨hts, hcs⟩ := foldl_prepend_sizes hasher (t.prepend hasher key).keys
      (⟨List.replicate (2 * t.table_size + 1) [], 2 * t.table_size + 1, 0⟩ : ADS_set Key)
    have hkl : (t.prepend hasher key).keys.length = t.curr_size + 1 := by
      rw [hp.length_eq, List.length_cons, ← hi.wf.size]
    simp only [hkl] at hcs
    simp only at hts
    have hp3 : (List.foldl (fun a k => a.prepend hasher k)
        (⟨List.replicate (2 * t.table_size + 1) [], 2 * t.table_size + 1, 0⟩ : ADS_set Key)
        (t.prepend hasher key).keys).keys.Perm (key :: t.keys) := by
      refine hp2.trans ?_
      simpa [ADS_set.keys] using hp
    have := hi.cap
    refine ⟨⟨hw2, ?_, ?_⟩, hp3, ?_, ?_⟩
    · rw [hts, hcs]; omega
    · rw [hts]; omega
    · rw [hcs]; omega
    · rw [hts]; omega

theorem Inv.insert__of_some {N : Nat} {t : ADS_set Key} (hi : Inv hasher N t) {key : Key}
    (hk : key ∉ t.keys) {fuel : Nat} {t1 : ADS_set Key}
    (h : t.insert_ hasher fuel key = some t1) :
    Inv hasher N t1 ∧ t1.keys.Perm (key :: t.keys) ∧ t1.curr_size = t.curr_size + 1 ∧
      t.table_size ≤ t1.table_size := by
  obtain ⟨t2, h2, hprops⟩ := hi.insert_ hasher hk fuel
  have h3 := insert__mono_le hasher (Nat.le_add_right fuel 2) t t1 key h
  rw [h3] at h2
  cases h2
  exact hprops

theorem flatten_drop (l : List (List Key)) (i : Nat) (hi : i < l.length) :
    (l.drop i).flatten = l.getD i [] ++ (l.drop (i + 1)).flatten := by
  rw [List.drop_eq_getElem_cons hi, List.flatten_cons, List.getD_eq_getElem l [] hi]

theorem Iterator.remaining_nil (t : ADS_set Key) (it : Iterator Key) (h : it.n = []) :
    it.remaining t = [] := by
  simp [Iterator.remaining, h]

theorem Iterator.remaining_eq_nil_iff (t : ADS_set Key) (it : Iterator Key) :
    it.remaining t = [] ↔ it.n = [] := by
  unfold Iterator.remaining
  cases it.n <;> simp

theorem Iterator.deref_eq_head (t : ADS_set Key) (it : Iterator Key) :
    it.deref = (it.remaining t).head? := by
  unfold Iterator.remaining Iterator.deref
  cases it.n <;> simp

theorem Iterator.incLoop_scan (t : ADS_set Key) (steps : Nat) (it : Iterator Key)
    (htail : it.n.tail = []) (hsz : it.sz = t.table.length) (hidx : it.idx < it.sz)
    (hsteps : steps = it.sz - it.idx) :
    (Iterator.incLoop t steps it).Valid t ∧
    (Iterator.incLoop t steps it).remaining t = (t.table.drop (it.idx + 1)).flatten := by
  induction steps generalizing it with
  | zero => omega
  | succ s ih =>
    rw [Iterator.incLoop, if_pos hidx, htail]
    simp only
    by_cases hend : it.idx + 1 = it.sz
    · rw [if_pos hend]
      refine ⟨Or.inl rfl, ?_⟩
      rw [Iterator.remaining_nil _ _ rfl, List.drop_of_length_le (by omega)]
      rfl
    · rw [if_neg hend]
      have hlt : it.idx + 1 < t.table.length := by omega
      rw [flatten_drop _ _ hlt]
      cases hh : t.head (it.idx + 1) with
      | nil =>
        simp only
        have := ih { it with idx := it.idx + 1 } htail hsz (by simp only; omega)
          (by simp only; omega)
        refine ⟨this.1, ?_⟩
        rw [this.2]
        unfold ADS_set.head at hh
        rw [hh]
        rfl
      | cons k next =>
        simp only
        refine ⟨Or.inr ⟨hsz, by simp only; omega⟩, ?_⟩
        unfold ADS_set.head at hh
        rw [hh]
        simp [Iterator.remaining]

theorem Iterator.inc_spec (t : ADS_set Key) (it : Iterator Key) (hv : it.Valid t)
    (k : Key) (rest : List Key) (hn : it.n = k :: rest) :
    (it.inc t).Valid t ∧ it.remaining t = k :: (it.inc t).remaining t := by
  rcases hv with h | ⟨hsz, hidx⟩
  · rw [hn] at h; cases h
  · have hrem : it.remaining t = k :: (rest ++ (t.table.drop (it.idx + 1)).flatten) := by
      simp [Iterator.remaining, hn]
    rw [hrem]
    cases rest with
    | nil =>
      have := Iterator.incLoop_scan t (it.sz - it.idx) it (by simp [hn]) hsz hidx rfl
      unfold Iterator.inc
      exact ⟨this.1, by rw [this.2]; rfl⟩
    | cons k2 rest2 =>
      obtain ⟨s, hs⟩ : ∃ s, it.sz - it.idx = s + 1 := ⟨it.sz - it.idx - 1, by omega⟩
      unfold Iterator.inc
      rw [hs, Iterator.incLoop, if_pos hidx, hn]
      simp only [List.tail_cons]
      exact ⟨Or.inr ⟨hsz, hidx⟩, by simp [Iterator.remaining]⟩

theorem ADS_set.beginLoop_spec (t : ADS_set Key) (hlen : t.table.length = t.table_size)
    (remaining it : Nat) (h : it + remaining = t.table.length) :
    (t.beginLoop remaining it).Valid t ∧
    (t.beginLoop remaining it).remaining t = (t.table.drop it).flatten := by
  induction remaining generalizing it with
  | zero =>
    refine ⟨Or.inl rfl, ?_⟩
    rw [List.drop_of_length_le (by omega)]
    rfl
  | succ r ih =>
    have hlt : it < t.table.length := by omega
    rw [flatten_drop _ _ hlt, ADS_set.beginLoop]
    cases hh : t.head it with
    | nil =>
      simp only
      have := ih (it + 1) (by omega)
      refine ⟨this.1, ?_⟩
      rw [this.2]
      unfold ADS_set.head at hh
      rw [hh]
      rfl
    | cons k next =>
      simp only
      refine ⟨Or.inr ⟨hlen.symm, by simp only; omega⟩, ?_⟩
      unfold ADS_set.head at hh
      rw [hh]
      simp [Iterator.remaining]

theorem ADS_set.begin_spec (t : ADS_set Key) (hlen : t.table.length = t.table_size) :
    t.begin.Valid t ∧ t.begin.remaining t = t.keys := by
  have := t.beginLoop_spec hlen t.table_size 0 (by omega)
  exact ⟨this.1, by rw [ADS_set.begin, this.2]; rfl⟩

theorem Iterator.advance_spec (t : ADS_set Key) (k : Nat) (it : Iterator Key)
    (hv : it.Valid t) (hk : k ≤ (it.remaining t).length) :
    (Iterator.advance t k it).Valid t ∧
    (Iterator.advance t k it).remaining t = (it.remaining t).drop k := by
  induction k generalizing it with
  | zero => exact ⟨hv, rfl⟩
  | succ j ih =>
    cases hn : it.n with
    | nil =>
      rw [Iterator.remaining_nil t it hn] at hk
      simp at hk
    | cons x rest =>
      obtain ⟨hv2, hrem⟩ := Iterator.inc_spec t it hv x rest hn
      rw [hrem] at hk ⊢
      simp only [List.length_cons] at hk
      have := ih (it.inc t) hv2 (by omega)
      exact ⟨this.1, by rw [Iterator.advance, this.2]; rfl⟩

theorem Iterator.ne_end_iff (it : Iterator Key) :
    it.ne ADS_set.end_ = true ↔ it.n ≠ [] := by
  unfold Iterator.ne ADS_set.end_
  cases it.n <;> simp

theorem ADS_set.iterate_spec (t : ADS_set Key) (steps : Nat) (it : Iterator Key)
    (hv : it.Valid t) (hk : (it.remaining t).length ≤ steps) :
    t.iterate steps it = some (it.remaining t) := by
  induction steps generalizing it with
  | zero =>
    have h0 : it.remaining t = [] := List.eq_nil_of_length_eq_zero (by omega)
    have hn := (Iterator.remaining_eq_nil_iff t it).mp h0
    have hne : ¬ (it.ne ADS_set.end_ = true) := by
      rw [Iterator.ne_end_iff]; exact fun h => h hn
    rw [ADS_set.iterate, if_neg hne, h0]
  | succ s ih =>
    rw [ADS_set.iterate]
    cases hn : it.n with
    | nil =>
      have hne : ¬ (it.ne ADS_set.end_ = true) := by
        rw [Iterator.ne_end_iff]; exact fun h => h hn
      rw [if_neg hne, Iterator.remaining_nil t it hn]
    | cons x rest =>
      have hne : it.ne ADS_set.end_ = true := by
        rw [Iterator.ne_end_iff, hn]; simp
      obtain ⟨hv2, hrem⟩ := Iterator.inc_spec t it hv x rest hn
      rw [hrem] at hk ⊢
      simp only [List.length_cons] at hk
      rw [if_pos hne]
      have hd : it.deref = some x := by simp [Iterator.deref, hn]
      rw [hd]
      simp only
      rw [ih (it.inc t) hv2 (by omega)]
      rfl

theorem ADS_set.range_for_eq (t : ADS_set Key) (hlen : t.table.length = t.table_size) :
    t.range_for = some t.keys := by
  obtain ⟨hv, hrem⟩ := t.begin_spec hlen
  have := t.iterate_spec t.table.flatten.length t.begin hv (by rw [hrem]; exact Nat.le_refl _)
  rw [ADS_set.range_for, this, hrem]

theorem ADS_set.eqLoop_spec (lhs rhs : ADS_set Key) (steps : Nat) (it : Iterator Key)
    (hv : it.Valid lhs) (hk : (it.remaining lhs).length ≤ steps) :
    lhs.eqLoop hasher rhs steps it
      = some ((it.remaining lhs).all (fun k => decide (rhs.count hasher k ≠ 0))) := by
  induction steps generalizing it with
  | zero =>
    have h0 : it.remaining lhs = [] := List.eq_nil_of_length_eq_zero (by omega)
    have hn := (Iterator.remaining_eq_nil_iff lhs it).mp h0
    have hne : ¬ (it.ne ADS_set.end_ = true) := by
      rw [Iterator.ne_end_iff]; exact fun h => h hn
    rw [ADS_set.eqLoop, if_neg hne, h0]
    rfl
  | succ s ih =>
    rw [ADS_set.eqLoop]
    cases hn : it.n with
    | nil =>
      have hne : ¬ (it.ne ADS_set.end_ = true) := by
        rw [Iterator.ne_end_iff]; exact fun h => h hn
      rw [if_neg hne, Iterator.remaining_nil lhs it hn]
      rfl
    | cons x rest =>
      have hne : it.ne ADS_set.end_ = true := by
        rw [Iterator.ne_end_iff, hn]; simp
      obtain ⟨hv2, hrem⟩ := Iterator.inc_spec lhs it hv x rest hn
      rw [hrem] at hk ⊢
      simp only [List.length_cons] at hk
      rw [if_pos hne]
      have hd : it.deref = some x := by simp [Iterator.deref, hn]
      rw [hd]
      simp only
      by_cases hc : rhs.count hasher x = 0
      · rw [if_pos hc]
        simp [hc]
      · rw [if_neg hc, ih (it.inc lhs) hv2 (by omega)]
        simp [hc]

theorem eraseLoop_spec (key : Key) (before chain : List Key) :
    eraseLoop key before chain
      = if key ∈ chain then some (before.reverse ++ chain.erase key) else none := by
  induction chain generalizing before with
  | nil => simp [eraseLoop]
  | cons k next ih =>
    by_cases hk : k = key
    · subst hk
      cases before <;> simp [eraseLoop]
    · have hk2 : ¬ key = k := fun e => hk e.symm
      simp only [eraseLoop]
      rw [if_neg hk, ih]
      by_cases hm : key ∈ next
      · simp [hm, hk, List.erase_cons_tail]
      · simp [hm, hk2]

theorem ADS_set.erase_of_not_mem {t : ADS_set Key} (hw : WF hasher t) {key : Key}
    (hk : key ∉ t.keys) : t.erase hasher key = (t, 0) := by
  have := (hw.count_eq_zero_iff hasher key).mpr hk
  simp [ADS_set.erase, this]

theorem ADS_set.erase_of_mem {t : ADS_set Key} (hw : WF hasher t) {key : Key}
    (hk : key ∈ t.keys) :
    t.erase hasher key
      = ({ t with table := t.table.set (t.h hasher key) ((t.head (t.h hasher key)).erase key),
                  curr_size := t.curr_size - 1 }, 1) := by
  have h1 := (hw.count_eq_one_iff hasher key).mpr hk
  have h2 := (hw.mem_keys_iff hasher key).mp hk
  simp [ADS_set.erase, h1, eraseLoop_spec, h2]

theorem WF.chain_nodup {t : ADS_set Key} (hw : WF hasher t) (i : Nat) : (t.head i).Nodup := by
  by_cases hi : i < t.table.length
  · have := (List.nodup_flatten.mp hw.nodup).1 (t.table[i]) (List.getElem_mem hi)
    unfold ADS_set.head
    rw [List.getD_eq_getElem _ _ hi]
    exact this
  · unfold ADS_set.head
    rw [List.getD_eq_default _ _ (Nat.le_of_not_lt hi)]
    exact List.nodup_nil

theorem Inv.erase {N : Nat} {t : ADS_set Key} (hi : Inv hasher N t) (key : Key) :
    Inv hasher N (t.erase hasher key).1 ∧
    (t.erase hasher key).2 = t.count hasher key ∧
    (∀ q, q ∈ (t.erase hasher key).1.keys ↔ q ∈ t.keys ∧ q ≠ key) ∧
    (t.erase hasher key).1.curr_size = t.curr_size - t.count hasher key ∧
    (t.erase hasher key).1.table_size = t.table_size ∧
    (∀ i, (t.erase hasher key).1.head i = (t.head i).filter (fun q => decide (q ≠ key))) := by
  have hw := hi.wf
  by_cases hk : key ∈ t.keys
  · have hc := (hw.count_eq_one_iff hasher key).mpr hk
    have hm := (hw.mem_keys_iff hasher key).mp hk
    have hlt := hw.h_lt hasher key
    rw [ADS_set.erase_of_mem hasher hw hk, hc]
    have hp : t.keys.Perm (key :: (t.table.set (t.h hasher key)
        ((t.head (t.h hasher key)).erase key)).flatten) :=
      flatten_perm_of_set t.table (t.h hasher key) key _ hlt (List.perm_cons_erase hm)
    have hnd := hp.nodup_iff.mp hw.nodup
    have hlen := hp.length_eq
    simp only [List.length_cons] at hlen
    have hbucket : ∀ i, (t.table.set (t.h hasher key)
        ((t.head (t.h hasher key)).erase key)).getD i []
        = (t.head i).filter (fun q => decide (q ≠ key)) := by
      intro i
      rw [getD_set_nil]
      by_cases hc2 : t.h hasher key = i ∧ t.h hasher key < t.table.length
      · rw [if_pos hc2, ← hc2.1, (hw.chain_nodup hasher _).erase_eq_filter]
        congr 1
        funext q
        by_cases hq : q = key <;> simp [hq]
      · rw [if_neg hc2]
        have hne : t.h hasher key ≠ i := fun e => hc2 ⟨e, hlt⟩
        symm
        refine List.filter_eq_self.mpr ?_
        intro q hq
        have h1 := hw.hashed i q hq
        simp only [decide_eq_true_eq]
        intro e
        subst e
        exact hne h1
    refine ⟨⟨⟨?_, hw.pos, ?_, ?_, ?_⟩, ?_, hi.cap⟩, rfl, ?_, rfl, rfl, hbucket⟩
    · simpa using hw.len
    · intro i k hmem
      have := hbucket i
      simp only [ADS_set.head] at hmem this ⊢
      rw [this] at hmem
      exact hw.hashed i k (List.mem_filter.mp hmem).1
    · exact (List.nodup_cons.mp hnd).2
    · show t.curr_size - 1 = _
      rw [hw.size, hlen]
      rfl
    · show t.curr_size - 1 ≤ 2 * t.table_size + 1
      have := hi.load
      omega
    · intro q
      show q ∈ (t.table.set _ _).flatten ↔ _
      constructor
      · intro hq
        refine ⟨hp.symm.subset (List.mem_cons_of_mem _ hq), ?_⟩
        intro e
        subst e
        exact (List.nodup_cons.mp hnd).1 hq
      · rintro ⟨hq, hne⟩
        rcases List.mem_cons.mp (hp.subset hq) with e | h
        · exact absurd e hne
        · exact h
  · have hc := (hw.count_eq_zero_iff hasher key).mpr hk
    rw [ADS_set.erase_of_not_mem hasher hw hk, hc]
    refine ⟨hi, rfl, ?_, rfl, rfl, ?_⟩
    · intro q
      constructor
      · intro hq
        exact ⟨hq, fun e => hk (e ▸ hq)⟩
      · exact fun h => h.1
    · intro i
      symm
      refine List.filter_eq_self.mpr ?_
      intro q hq
      simp only [decide_eq_true_eq]
      intro e
      subst e
      exact hk ((mem_flatten_iff_getD _ _).mpr ⟨i, hq⟩)

theorem ADS_set.findChain_n (t : ADS_set Key) (key : Key) (idx : Nat) (chain : List Key) :
    ((t.findChain key idx chain).n ≠ [] ↔ key ∈ chain) ∧
    (key ∈ chain → (t.findChain key idx chain).deref = some key) := by
  induction chain with
  | nil => simp [ADS_set.findChain, ADS_set.end_]
  | cons k next ih =>
    rw [ADS_set.findChain]
    by_cases hk : k = key
    · subst hk
      simp [Iterator.deref]
    · have hk2 : ¬ key = k := fun e => hk e.symm
      rw [if_neg hk]
      simp only [List.mem_cons, hk2, false_or]
      exact ih

theorem WF.find_ne_end_iff {t : ADS_set Key} (hw : WF hasher t) (key : Key) :
    (t.find hasher key).ne ADS_set.end_ = true ↔ key ∈ t.keys := by
  rw [Iterator.ne_end_iff, hw.mem_keys_iff hasher key]
  exact (t.findChain_n key _ _).1

theorem WF.find_deref {t : ADS_set Key} (hw : WF hasher t) {key : Key} (hk : key ∈ t.keys) :
    (t.find hasher key).deref = some key :=
  (t.findChain_n key _ _).2 ((hw.mem_keys_iff hasher key).mp hk)

theorem ADS_set.insert_of_mem {t : ADS_set Key} (hw : WF hasher t) {key : Key}
    (hk : key ∈ t.keys) (fuel : Nat) :
    t.insert hasher fuel key = some (t, t.find hasher key, false) := by
  have := (hw.count_eq_one_iff hasher key).mpr hk
  simp [ADS_set.insert, this]

theorem ADS_set.insert_of_not_mem {t : ADS_set Key} (hw : WF hasher t) {key : Key}
    (hk : key ∉ t.keys) (fuel : Nat) :
    t.insert hasher fuel key
      = (t.insert_ hasher fuel key).map (fun t1 => (t1, t1.find hasher key, true)) := by
  have := (hw.count_eq_zero_iff hasher key).mpr hk
  simp [ADS_set.insert, this]

theorem Inv.fresh_inv {N : Nat} (hN : 0 < N) :
    Inv hasher N (⟨List.replicate N [], N, 0⟩ : ADS_set Key) :=
  ⟨WF.fresh_wf hasher hN, by simp, Nat.le_refl _⟩

theorem ADS_set.ctor_eq (fuel N : Nat) :
    (ADS_set.ctor hasher fuel N : Option (ADS_set Key)) = some ⟨List.replicate N [], N, 0⟩ := by
  simp [ADS_set.ctor, ADS_set.rehash, ADS_set.rehashWith]

theorem ADS_set.insert_range_eq (fuel : Nat) (t : ADS_set Key) (range : List Key) :
    t.insert_range hasher fuel range = t.insert_ilist hasher fuel range := by
  induction range generalizing t with
  | nil => rfl
  | cons k rest ih =>
    rw [ADS_set.insert_range, ADS_set.insert_ilist]
    split
    · congr 1
      funext t1
      exact ih t1
    · exact ih t

theorem ADS_set.foldlM_insert_eq (fuel : Nat) (t : ADS_set Key) (l : List Key) :
    l.foldlM (fun a k => (a.insert hasher fuel k).map (fun r => r.1)) t
      = t.insert_ilist hasher fuel l := by
  induction l generalizing t with
  | nil => rfl
  | cons k rest ih =>
    rw [List.foldlM_cons, ADS_set.insert_ilist, ADS_set.insert]
    split
    · cases h : t.insert_ hasher fuel k with
      | none => rfl
      | some t1 => exact ih t1
    · exact ih t

theorem Inv.insert_ilist_of_some {N : Nat} {fuel : Nat} (l : List Key) {t t1 : ADS_set Key}
    (hi : Inv hasher N t) (h : t.insert_ilist hasher fuel l = some t1) :
    Inv hasher N t1 ∧ (∀ q, q ∈ t1.keys ↔ q ∈ t.keys ∨ q ∈ l) ∧
      t.table_size ≤ t1.table_size := by
  induction l generalizing t with
  | nil =>
    simp only [ADS_set.insert_ilist, Option.some.injEq] at h
    subst h
    exact ⟨hi, by simp, Nat.le_refl _⟩
  | cons k rest ih =>
    rw [ADS_set.insert_ilist] at h
    by_cases hc : t.count hasher k = 0
    · rw [if_pos hc] at h
      have hk := (hi.wf.count_eq_zero_iff hasher k).mp hc
      cases h2 : t.insert_ hasher fuel k with
      | none => rw [h2] at h; simp at h
      | some t2 =>
        rw [h2] at h
        obtain ⟨hi2, hp, _, hcap⟩ := hi.insert__of_some hasher hk h2
        obtain ⟨hi3, hmem, hcap3⟩ := ih hi2 h
        refine ⟨hi3, ?_, Nat.le_trans hcap hcap3⟩
        intro q
        rw [hmem q, hp.mem_iff]
        simp only [List.mem_cons]
        tauto
    · rw [if_neg hc] at h
      have hk : k ∈ t.keys := by
        by_contra hk
        exact hc ((hi.wf.count_eq_zero_iff hasher k).mpr hk)
      obtain ⟨hi3, hmem, hcap3⟩ := ih hi h
      refine ⟨hi3, ?_, hcap3⟩
      intro q
      rw [hmem q]
      simp only [List.mem_cons]
      constructor
      · rintro (h | h)
        · exact Or.inl h
        · exact Or.inr (Or.inr h)
      · rintro (h | rfl | h)
        · exact Or.inl h
        · exact Or.inl hk
        · exact Or.inr h

theorem Inv.insert_ilist_total {N : Nat} (f : Nat) (l : List Key) {t : ADS_set Key}
    (hi : Inv hasher N t) : ∃ t1, t.insert_ilist hasher (f + 2) l = some t1 := by
  induction l generalizing t with
  | nil => exact ⟨t, rfl⟩
  | cons k rest ih =>
    rw [ADS_set.insert_ilist]
    by_cases hc : t.count hasher k = 0
    · rw [if_pos hc]
      have hk := (hi.wf.count_eq_zero_iff hasher k).mp hc
      obtain ⟨t2, h2, hi2, _⟩ := hi.insert_ hasher hk f
      rw [h2]
      exact ih hi2
    · rw [if_neg hc]
      exact ih hi

theorem Inv.foldlM_insert__of_some {N : Nat} {fuel : Nat} (vect : List Key)
    {t t1 : ADS_set Key} (hi : Inv hasher N t) (hnd : vect.Nodup)
    (hdis : ∀ k ∈ vect, k ∉ t.keys)
    (h : vect.foldlM (fun a k => a.insert_ hasher fuel k) t = some t1) :
    Inv hasher N t1 ∧ (∀ q, q ∈ t1.keys ↔ q ∈ t.keys ∨ q ∈ vect) ∧
      t.table_size ≤ t1.table_size := by
  induction vect generalizing t with
  | nil =>
    simp only [List.foldlM_nil, Option.pure_def, Option.some.injEq] at h
    subst h
    exact ⟨hi, by simp, Nat.le_refl _⟩
  | cons k rest ih =>
    rw [List.foldlM_cons] at h
    obtain ⟨hnk, hndr⟩ := List.nodup_cons.mp hnd
    have hk := hdis k (List.mem_cons_self _ _)
    cases h2 : t.insert_ hasher fuel k with
    | none => rw [h2] at h; simp at h
    | some t2 =>
      rw [h2] at h
      obtain ⟨hi2, hp, _, hcap⟩ := hi.insert__of_some hasher hk h2
      have hdis2 : ∀ q ∈ rest, q ∉ t2.keys := by
        intro q hq hmem
        rcases List.mem_cons.mp (hp.subset hmem) with rfl | h
        · exact hnk hq
        · exact hdis q (List.mem_cons_of_mem _ hq) h
      obtain ⟨hi3, hmem, hcap3⟩ := ih hi2 hndr hdis2 h
      refine ⟨hi3, ?_, Nat.le_trans hcap hcap3⟩
      intro q
      rw [hmem q, hp.mem_iff]
      simp only [List.mem_cons]
      tauto

theorem Reachable.inv {N : Nat} (hN : 0 < N) {t : ADS_set Key} (hr : Reachable hasher N t) :
    Inv hasher N t := by
  induction hr with
  | ctor h =>
    rw [ADS_set.ctor_eq] at h
    cases h
    exact Inv.fresh_inv hasher hN
  | ctor_ilist h =>
    rw [ADS_set.ctor_ilist, ADS_set.ctor_eq] at h
    exact ((Inv.fresh_inv hasher hN).insert_ilist_of_some hasher _ h).1
  | ctor_range h =>
    rw [ADS_set.ctor_range, ADS_set.ctor_eq] at h
    simp only [Option.some_bind, ADS_set.insert_range_eq] at h
    exact ((Inv.fresh_inv hasher hN).insert_ilist_of_some hasher _ h).1
  | ctor_copy _ h ih =>
    rw [ADS_set.ctor_copy, ADS_set.ctor_eq, ADS_set.range_for_eq _ ih.wf.len] at h
    exact ((Inv.fresh_inv hasher hN).foldlM_insert__of_some hasher _ ih.wf.nodup
      (by intro k _; simp [ADS_set.keys]) h).1
  | assign _ _ h _ ih2 =>
    rw [ADS_set.assign, ADS_set.range_for_eq _ ih2.wf.len] at h
    simp only [Option.some_bind, ADS_set.foldlM_insert_eq] at h
    exact ((Inv.fresh_inv hasher hN).insert_ilist_of_some hasher _ h).1
  | assign_ilist _ h _ =>
    exact ((Inv.fresh_inv hasher hN).insert_ilist_of_some hasher _ h).1
  | @insert fuel t key r _ h ih =>
    by_cases hk : key ∈ t.keys
    · rw [ADS_set.insert_of_mem hasher ih.wf hk] at h
      cases h
      exact ih
    · rw [ADS_set.insert_of_not_mem hasher ih.wf hk] at h
      cases h2 : t.insert_ hasher fuel key with
      | none => rw [h2] at h; simp at h
      | some t2 =>
        rw [h2] at h
        cases h
        exact (ih.insert__of_some hasher hk h2).1
  | insert_ilist _ h ih => exact (ih.insert_ilist_of_some hasher _ h).1
  | insert_range _ h ih =>
    rw [ADS_set.insert_range_eq] at h
    exact (ih.insert_ilist_of_some hasher _ h).1
  | clear _ _ => exact Inv.fresh_inv hasher hN
  | erase _ ih => exact (ih.erase hasher _).1
  | swap _ _ _ ih2 => exact ih2

theorem Inv.insert {N : Nat} {t : ADS_set Key} (hi : Inv hasher N t) (key : Key) (f : Nat) :
    ∃ t1, t.insert hasher (f + 2) key
        = some (t1, t1.find hasher key, decide (t.count hasher key = 0)) ∧
      Inv hasher N t1 ∧ (∀ q, q ∈ t1.keys ↔ q = key ∨ q ∈ t.keys) ∧
      t1.curr_size = t.curr_size + (if t.count hasher key = 0 then 1 else 0) ∧
      t.table_size ≤ t1.table_size := by
  by_cases hk : key ∈ t.keys
  · have hc := (hi.wf.count_eq_one_iff hasher key).mpr hk
    refine ⟨t, ?_, hi, ?_, ?_, Nat.le_refl _⟩
    · rw [ADS_set.insert_of_mem hasher hi.wf hk, hc]
      rfl
    · intro q
      constructor
      · exact fun h => Or.inr h
      · rintro (rfl | h)
        · exact hk
        · exact h
    · rw [hc]
      rfl
  · have hc := (hi.wf.count_eq_zero_iff hasher key).mpr hk
    obtain ⟨t1, h1, hi1, hp, hs, hcap⟩ := hi.insert_ hasher hk f
    refine ⟨t1, ?_, hi1, ?_, ?_, hcap⟩
    · rw [ADS_set.insert_of_not_mem hasher hi.wf hk, h1, hc]
      rfl
    · intro q
      rw [hp.mem_iff]
      exact List.mem_cons
    · rw [hs, hc]
      rfl

theorem lastIsInsert_cons (q : Key) (c : Call Key) (rest : List (Call Key)) :
    lastIsInsert q (c :: rest)
      = if q ∈ rest.map Call.key then lastIsInsert q rest
        else decide (c = Call.insert q) := by
  simp only [lastIsInsert]
  by_cases hm : q ∈ rest.map Call.key
  · have hm2 : (rest.map Call.key).contains q = true := by simpa using hm
    rw [if_pos hm2, if_pos hm]
  · have hm2 : ¬ ((rest.map Call.key).contains q = true) := by simpa using hm
    rw [if_neg hm2, if_neg hm]
    cases c <;> simp

theorem lastIsInsert_mem (q : Key) (calls : List (Call Key))
    (h : lastIsInsert q calls = true) : q ∈ calls.map Call.key := by
  induction calls with
  | nil => simp [lastIsInsert] at h
  | cons c rest ih =>
    rw [lastIsInsert_cons] at h
    by_cases hm : q ∈ rest.map Call.key
    · rw [List.map_cons]
      exact List.mem_cons_of_mem _ hm
    · rw [if_neg hm] at h
      simp only [decide_eq_true_eq] at h
      subst h
      simp [Call.key]

theorem Inv.run {N : Nat} (f : Nat) (calls : List (Call Key)) {t : ADS_set Key}
    (hi : Inv hasher N t) :
    ∃ t1, t.run hasher (f + 2) calls = some t1 ∧ Inv hasher N t1 ∧
      ∀ q, q ∈ t1.keys ↔
        (lastIsInsert q calls = true ∨ (q ∉ calls.map Call.key ∧ q ∈ t.keys)) := by
  induction calls generalizing t with
  | nil => exact ⟨t, rfl, hi, by simp [lastIsInsert]⟩
  | cons c rest ih =>
    cases c with
    | insert key =>
      obtain ⟨t2, h2, hi2, hmem2, _⟩ := hi.insert hasher key f
      obtain ⟨t1, h1, hi1, hmem1⟩ := ih hi2
      refine ⟨t1, ?_, hi1, ?_⟩
      · rw [ADS_set.run, h2]
        exact h1
      · intro q
        rw [hmem1 q, hmem2 q, lastIsInsert_cons]
        by_cases hm : q ∈ rest.map Call.key
        · rw [if_pos hm]
          simp [hm]
        · have hl : ¬ (lastIsInsert q rest = true) := fun h => hm (lastIsInsert_mem q rest h)
          rw [if_neg hm]
          simp only [List.map_cons, List.mem_cons, Call.key, decide_eq_true_eq,
            Call.insert.injEq]
          constructor
          · rintro (h | ⟨_, rfl | h⟩)
            · exact absurd h hl
            · exact Or.inl rfl
            · by_cases e : key = q
              · exact Or.inl e
              · exact Or.inr ⟨fun h2 => h2.elim (fun e2 => e e2.symm) hm, h⟩
          · rintro (e | ⟨_, h2⟩)
            · exact Or.inr ⟨hm, Or.inl e.symm⟩
            · exact Or.inr ⟨hm, Or.inr h2⟩
    | erase key =>
      obtain ⟨hi2, _, hmem2, _⟩ := hi.erase hasher key
      obtain ⟨t1, h1, hi1, hmem1⟩ := ih hi2
      refine ⟨t1, ?_, hi1, ?_⟩
      · rw [ADS_set.run]
        exact h1
      · intro q
        rw [hmem1 q, hmem2 q, lastIsInsert_cons]
        by_cases hm : q ∈ rest.map Call.key
        · rw [if_pos hm]
          simp [hm]
        · have hl : ¬ (lastIsInsert q rest = true) := fun h => hm (lastIsInsert_mem q rest h)
          rw [if_neg hm]
          simp only [List.map_cons, List.mem_cons, Call.key, decide_eq_true_eq]
          constructor
          · rintro (h | ⟨_, h, hne⟩)
            · exact absurd h hl
            · exact Or.inr ⟨fun h2 => h2.elim hne hm, h⟩
          · rintro (h | ⟨h1, h2⟩)
            · cases h
            · exact Or.inr ⟨hm, h2, fun e => h1 (Or.inl e)⟩

theorem ADS_set.run_map_insert (fuel : Nat) (t : ADS_set Key) (keys : List Key) :
    t.run hasher fuel (keys.map Call.insert) = t.insert_ilist hasher fuel keys := by
  induction keys generalizing t with
  | nil => rfl
  | cons k rest ih =>
    rw [List.map_cons, ADS_set.run, ADS_set.insert_ilist, ADS_set.insert]
    split
    · cases h : t.insert_ hasher fuel k with
      | none => rfl
      | some t1 => exact ih t1
    · exact ih t

theorem Inv.size_eq_card {N : Nat} {t : ADS_set Key} (hi : Inv hasher N t) (keys : List Key)
    (hmem : ∀ q, q ∈ t.keys ↔ q ∈ keys) : t.size = keys.toFinset.card := by
  have h1 : t.keys.toFinset = keys.toFinset := by
    ext q
    simp [hmem q]
  rw [← h1, List.toFinset_card_of_nodup hi.wf.nodup]
  exact hi.wf.size

theorem Inv.insert_ilist_spec {N : Nat} (f : Nat) (l : List Key) {t : ADS_set Key}
    (hi : Inv hasher N t) :
    ∃ t1, t.insert_ilist hasher (f + 2) l = some t1 ∧ Inv hasher N t1 ∧
      (∀ q, q ∈ t1.keys ↔ q ∈ t.keys ∨ q ∈ l) ∧ t.table_size ≤ t1.table_size := by
  obtain ⟨t1, h1⟩ := hi.insert_ilist_total hasher f l
  exact ⟨t1, h1, hi.insert_ilist_of_some hasher l h1⟩

/-- C1. Membership correctness: for every `N ≥ 1`, every sequence of `insert(k)` and
`erase(k)` calls run on a default-constructed table returns a table (a call-depth budget of
two or more is enough) in which, for every key `q`, `count(q)` is 1 if the last call that
mentions `q` is an insert and 0 otherwise, `find(q) != end()` exactly when `count(q) == 1`,
and then the found position dereferences to `q`. -/
theorem membership_correctness (N : Nat) (hN : 1 ≤ N) (calls : List (Call Key)) (fuel : Nat)
    (hfuel : 2 ≤ fuel) :
    ∃ t0 t, ADS_set.ctor hasher fuel N = some t0 ∧ t0.run hasher fuel calls = some t ∧
      ∀ q, t.count hasher q = (if lastIsInsert q calls = true then 1 else 0) ∧
        ((t.find hasher q).ne ADS_set.end_ = true ↔ t.count hasher q = 1) ∧
        (t.count hasher q = 1 → (t.find hasher q).deref = some q) := by
  obtain ⟨f, rfl⟩ : ∃ f, fuel = f + 2 := ⟨fuel - 2, by omega⟩
  obtain ⟨t, hrun, hi, hmem⟩ := (@Inv.fresh_inv Key _ hasher N hN).run hasher f calls
  refine ⟨_, t, ADS_set.ctor_eq hasher _ N, hrun, ?_⟩
  intro q
  have hq : q ∈ t.keys ↔ lastIsInsert q calls = true := by
    rw [hmem q]
    simp [ADS_set.keys]
  refine ⟨?_, ?_, ?_⟩
  · rw [hi.wf.count_eq hasher q]
    by_cases h : q ∈ t.keys
    · rw [if_pos h, if_pos (hq.mp h)]
    · rw [if_neg h, if_neg (fun h2 => h (hq.mpr h2))]
  · rw [hi.wf.find_ne_end_iff hasher q, hi.wf.count_eq_one_iff hasher q]
  · intro hc
    exact hi.wf.find_deref hasher ((hi.wf.count_eq_one_iff hasher q).mp hc)

theorem membership_correctness_witness :
    1 ≤ 7 ∧ 2 ≤ 2 ∧
    ∃ t0 t, ADS_set.ctor idHash 2 7 = some t0 ∧
      t0.run idHash 2 [Call.insert 3, Call.insert 10, Call.erase 3, Call.insert 17] = some t ∧
      ∀ q, t.count idHash q
          = (if lastIsInsert q [Call.insert 3, Call.insert 10, Call.erase 3, Call.insert 17]
              = true then 1 else 0) ∧
        ((t.find idHash q).ne ADS_set.end_ = true ↔ t.count idHash q = 1) ∧
        (t.count idHash q = 1 → (t.find idHash q).deref = some q) :=
  ⟨by decide, by decide, membership_correctness idHash 7 (by decide)
    [Call.insert 3, Call.insert 10, Call.erase 3, Call.insert 17] 2 (by decide)⟩

/-- C2. Uniqueness: for every sequence of keys, with arbitrary repetitions, inserted into a
default-constructed table through the initializer-list constructor, the list insert, the
range insert or repeated single-key inserts, the operation returns a table whose `size()` is
the number of distinct keys of the sequence. -/
theorem uniqueness (N : Nat) (hN : 1 ≤ N) (keys : List Key) (fuel : Nat) (hfuel : 2 ≤ fuel) :
    (∃ t, ADS_set.ctor_ilist hasher fuel N keys = some t ∧ t.size = keys.toFinset.card) ∧
    ∃ t0, ADS_set.ctor hasher fuel N = some t0 ∧
      (∃ t, t0.insert_ilist hasher fuel keys = some t ∧ t.size = keys.toFinset.card) ∧
      (∃ t, t0.insert_range hasher fuel keys = some t ∧ t.size = keys.toFinset.card) ∧
      (∃ t, t0.run hasher fuel (keys.map Call.insert) = some t ∧
        t.size = keys.toFinset.card) := by
  obtain ⟨f, rfl⟩ : ∃ f, fuel = f + 2 := ⟨fuel - 2, by omega⟩
  obtain ⟨t, h, hi, hmem, _⟩ := (@Inv.fresh_inv Key _ hasher N hN).insert_ilist_spec hasher f keys
  have hsize : t.size = keys.toFinset.card :=
    hi.size_eq_card hasher keys (by intro q; rw [hmem q]; simp [ADS_set.keys])
  refine ⟨⟨t, ?_, hsize⟩, _, ADS_set.ctor_eq hasher _ N, ⟨t, h, hsize⟩, ⟨t, ?_, hsize⟩,
    ⟨t, ?_, hsize⟩⟩
  · rw [ADS_set.ctor_ilist, ADS_set.ctor_eq]
    exact h
  · rw [ADS_set.insert_range_eq]
    exact h
  · rw [ADS_set.run_map_insert]
    exact h

theorem uniqueness_witness :
    1 ≤ 7 ∧ 2 ≤ 2 ∧
    (∃ t, ADS_set.ctor_ilist idHash 2 7 [14, 1, 14, 8, 1, 22] = some t ∧
      t.size = [14, 1, 14, 8, 1, 22].toFinset.card) ∧
    ∃ t0, ADS_set.ctor idHash 2 7 = some t0 ∧
      (∃ t, t0.insert_ilist idHash 2 [14, 1, 14, 8, 1, 22] = some t ∧
        t.size = [14, 1, 14, 8, 1, 22].toFinset.card) ∧
      (∃ t, t0.insert_range idHash 2 [14, 1, 14, 8, 1, 22] = some t ∧
        t.size = [14, 1, 14, 8, 1, 22].toFinset.card) ∧
      (∃ t, t0.run idHash 2 ([14, 1, 14, 8, 1, 22].map Call.insert) = some t ∧
        t.size = [14, 1, 14, 8, 1, 22].toFinset.card) :=
  ⟨by decide, by decide, uniqueness idHash 7 (by decide) [14, 1, 14, 8, 1, 22] 2 (by decide)⟩

/-- C3. Result of `insert(key)`: in every reachable table the call returns (a call-depth
budget of two or more is enough); the returned flag is true iff `count(key)` was 0 before the
call; `size()` afterwards is the previous size plus 1 when the flag is true and the previous
size when it is false; and the returned iterator is not `end()` and dereferences to `key`,
whether or not the insertion grew the table. -/
theorem insert_result (N : Nat) (hN : 1 ≤ N) (t : ADS_set Key) (hr : Reachable hasher N t)
    (key : Key) (fuel : Nat) (hfuel : 2 ≤ fuel) :
    ∃ t1 it flag, t.insert hasher fuel key = some (t1, it, flag) ∧
      (flag = true ↔ t.count hasher key = 0) ∧
      t1.size = t.size + (if flag = true then 1 else 0) ∧
      it.ne ADS_set.end_ = true ∧ it.deref = some key := by
  obtain ⟨f, rfl⟩ : ∃ f, fuel = f + 2 := ⟨fuel - 2, by omega⟩
  have hi := hr.inv hasher hN
  obtain ⟨t1, h, hi1, hmem, hsize, _⟩ := hi.insert hasher key f
  have hk : key ∈ t1.keys := (hmem key).mpr (Or.inl rfl)
  refine ⟨t1, _, _, h, by simp, ?_, (hi1.wf.find_ne_end_iff hasher key).mpr hk,
    hi1.wf.find_deref hasher hk⟩
  simp only [ADS_set.size, hsize, decide_eq_true_eq]

theorem insert_result_witness :
    1 ≤ 7 ∧ Reachable idHash 7 (⟨[[14], [8, 1], [], [], [], [], []], 7, 3⟩ : ADS_set Nat) ∧
    2 ≤ 2 ∧
    ∃ t1 it flag,
      (⟨[[14], [8, 1], [], [], [], [], []], 7, 3⟩ : ADS_set Nat).insert idHash 2 15
        = some (t1, it, flag) ∧
      (flag = true ↔
        (⟨[[14], [8, 1], [], [], [], [], []], 7, 3⟩ : ADS_set Nat).count idHash 15 = 0) ∧
      t1.size = (⟨[[14], [8, 1], [], [], [], [], []], 7, 3⟩ : ADS_set Nat).size
        + (if flag = true then 1 else 0) ∧
      it.ne ADS_set.end_ = true ∧ it.deref = some 15 :=
  ⟨by decide, @Reachable.ctor_ilist Nat _ idHash 7 2 [14, 1, 8] _ (by decide), by decide,
    insert_result idHash 7 (by decide) _
      (@Reachable.ctor_ilist Nat _ idHash 7 2 [14, 1, 8] _ (by decide)) 15 2 (by decide)⟩

/-- C4. Inserting a present key mutates nothing: in a table with `count(key) == 1` the
single-key `insert(key)` returns the flag false and leaves the capacity, the size and every
chain as they were, so no growth is triggered; and a list or range insert that meets `key`
skips it, continuing on the unchanged table. -/
theorem insert_present_unchanged (t : ADS_set Key) (key : Key) (fuel : Nat)
    (hc : t.count hasher key = 1) :
    (∃ t1 it, t.insert hasher fuel key = some (t1, it, false) ∧
      t1.table_size = t.table_size ∧ t1.curr_size = t.curr_size ∧ t1.table = t.table) ∧
    (∀ rest, t.insert_ilist hasher fuel (key :: rest) = t.insert_ilist hasher fuel rest) ∧
    (∀ rest, t.insert_range hasher fuel (key :: rest) = t.insert_range hasher fuel rest) := by
  refine ⟨⟨t, t.find hasher key, ?_, rfl, rfl, rfl⟩, ?_, ?_⟩
  · simp [ADS_set.insert, hc]
  · intro rest
    simp [ADS_set.insert_ilist, hc]
  · intro rest
    simp [ADS_set.insert_range, hc]

theorem insert_present_unchanged_witness :
    (⟨[[14], [8, 1], [], [], [], [], []], 7, 3⟩ : ADS_set Nat).count idHash 8 = 1 ∧
    (∃ t1 it,
      (⟨[[14], [8, 1], [], [], [], [], []], 7, 3⟩ : ADS_set Nat).insert idHash 2 8
        = some (t1, it, false) ∧
      t1.table_size = 7 ∧ t1.curr_size = 3 ∧ t1.table = [[14], [8, 1], [], [], [], [], []]) ∧
    (∀ rest, (⟨[[14], [8, 1], [], [], [], [], []], 7, 3⟩ : ADS_set Nat).insert_ilist idHash 2
        (8 :: rest)
      = (⟨[[14], [8, 1], [], [], [], [], []], 7, 3⟩ : ADS_set Nat).insert_ilist idHash 2 rest) ∧
    (∀ rest, (⟨[[14], [8, 1], [], [], [], [], []], 7, 3⟩ : ADS_set Nat).insert_range idHash 2
        (8 :: rest)
      = (⟨[[14], [8, 1], [], [], [], [], []], 7, 3⟩ : ADS_set Nat).insert_range idHash 2 rest) :=
  ⟨by decide, insert_present_unchanged idHash _ 8 2 (by decide)⟩

theorem Inv.count_eq_of_mem_iff {N : Nat} {t t1 : ADS_set Key} (hi : Inv hasher N t)
    (hi1 : Inv hasher N t1) (q : Key) (h : q ∈ t1.keys ↔ q ∈ t.keys) :
    t1.count hasher q = t.count hasher q := by
  rw [hi.wf.count_eq hasher q, hi1.wf.count_eq hasher q]
  by_cases hq : q ∈ t.keys
  · rw [if_pos hq, if_pos (h.mpr hq)]
  · rw [if_neg hq, if_neg (fun h2 => hq (h.mp h2))]

/-- C5. Postcondition of `erase(key)`: in every reachable table the call returns
`r = count(key)` as it was before the call, so `r` is 0 or 1, and `r` is 1 wherever the key
stands in its chain (head, middle or tail); afterwards `count(key) == 0`, `size()` is the
previous size minus `r`, `count(q)` is unchanged for every other key `q`, every chain is the
previous chain without `key` with the remaining keys in their previous order, and the capacity
is unchanged. -/
theorem erase_postcondition (N : Nat) (hN : 1 ≤ N) (t : ADS_set Key)
    (hr : Reachable hasher N t) (key : Key) :
    (t.erase hasher key).2 = t.count hasher key ∧
    ((t.erase hasher key).2 = 0 ∨ (t.erase hasher key).2 = 1) ∧
    (∀ before after, t.head (t.h hasher key) = before ++ key :: after →
      (t.erase hasher key).2 = 1 ∧
      (t.erase hasher key).1.head (t.h hasher key) = before ++ after) ∧
    (t.erase hasher key).1.count hasher key = 0 ∧
    (t.erase hasher key).1.size = t.size - (t.erase hasher key).2 ∧
    (∀ q, q ≠ key → (t.erase hasher key).1.count hasher q = t.count hasher q) ∧
    (∀ i, (t.erase hasher key).1.head i = (t.head i).filter (fun q => decide (q ≠ key))) ∧
    (t.erase hasher key).1.table_size = t.table_size := by
  have hi := hr.inv hasher hN
  obtain ⟨hi1, hret, hmem, hsize, hcap, hbucket⟩ := hi.erase hasher key
  have hcount : t.count hasher key = 0 ∨ t.count hasher key = 1 := by
    rw [hi.wf.count_eq hasher key]
    by_cases h : key ∈ t.keys
    · exact Or.inr (if_pos h)
    · exact Or.inl (if_neg h)
  refine ⟨hret, by rw [hret]; exact hcount, ?_, ?_, ?_, ?_, hbucket, hcap⟩
  · intro before after hchain
    have hk : key ∈ t.keys :=
      (hi.wf.mem_keys_iff hasher key).mpr (by rw [hchain]; simp)
    refine ⟨by rw [hret]; exact (hi.wf.count_eq_one_iff hasher key).mpr hk, ?_⟩
    rw [hbucket, hchain]
    have hnd := hi.wf.chain_nodup hasher (t.h hasher key)
    rw [hchain] at hnd
    have hnb : key ∉ before := fun h =>
      (List.nodup_append.mp hnd).2.2 h (List.mem_cons_self _ _)
    have hna : key ∉ after :=
      (List.nodup_cons.mp (List.nodup_append.mp hnd).2.1).1
    rw [List.filter_append, List.filter_cons]
    simp only [ne_eq, not_true_eq_false, decide_False, Bool.false_eq_true, if_false]
    rw [List.filter_eq_self.mpr, List.filter_eq_self.mpr]
    · intro q hq
      simp only [decide_eq_true_eq]
      exact fun e => hna (e ▸ hq)
    · intro q hq
      simp only [decide_eq_true_eq]
      exact fun e => hnb (e ▸ hq)
  · rw [hi1.wf.count_eq_zero_iff hasher key, hmem key]
    exact fun h => h.2 rfl
  · simp only [ADS_set.size, hsize, hret]
  · intro q hq
    exact hi.count_eq_of_mem_iff hasher hi1 q
      (by rw [hmem q]; exact ⟨fun h => h.1, fun h => ⟨h, hq⟩⟩)

theorem erase_postcondition_witness :
    1 ≤ 7 ∧
    Reachable idHash 7 (⟨[[7], [], [37], [3], [4, 11], [], []], 7, 5⟩ : ADS_set Nat) ∧
    ((⟨[[7], [], [37], [3], [4, 11], [], []], 7, 5⟩ : ADS_set Nat).erase idHash 7).1
      = ⟨[[], [], [37], [3], [4, 11], [], []], 7, 4⟩ ∧
    ((⟨[[7], [], [37], [3], [4, 11], [], []], 7, 5⟩ : ADS_set Nat).erase idHash 7).2
      = (⟨[[7], [], [37], [3], [4, 11], [], []], 7, 5⟩ : ADS_set Nat).count idHash 7 :=
  ⟨by decide, @Reachable.ctor_ilist Nat _ idHash 7 2 [7, 37, 3, 11, 4] _ (by decide),
    by decide,
    (erase_postcondition idHash 7 (by decide) _
      (@Reachable.ctor_ilist Nat _ idHash 7 2 [7, 37, 3, 11, 4] _ (by decide)) 7).1⟩

/-- C6. Erase and reinsert: in every reachable table `t`, (i) if `count(k) == 0` then
`erase(k)` returns 0 and leaves `size()` unchanged, and (ii) if `count(k) == 1` then
`erase(k)` returns 1, the following `insert(k)` returns the flag true, and the resulting table
has the size and the capacity of `t`, `count(k) == 1`, and the same `count(q)` as `t` for
every key `q`. -/
theorem erase_reinsert (N : Nat) (hN : 1 ≤ N) (t : ADS_set Key) (hr : Reachable hasher N t)
    (k : Key) (fuel : Nat) (hfuel : 2 ≤ fuel) :
    (t.count hasher k = 0 →
      (t.erase hasher k).2 = 0 ∧ (t.erase hasher k).1.size = t.size) ∧
    (t.count hasher k = 1 →
      (t.erase hasher k).2 = 1 ∧
      ∃ t1 it, (t.erase hasher k).1.insert hasher fuel k = some (t1, it, true) ∧
        t1.size = t.size ∧ t1.table_size = t.table_size ∧ t1.count hasher k = 1 ∧
        ∀ q, t1.count hasher q = t.count hasher q) := by
  obtain ⟨f, rfl⟩ : ∃ f, fuel = f + 2 := ⟨fuel - 2, by omega⟩
  have hi := hr.inv hasher hN
  obtain ⟨hi1, hret, hmem, hsize, hcap, _⟩ := hi.erase hasher k
  constructor
  · intro hc
    rw [hret, hc]
    refine ⟨rfl, ?_⟩
    simp only [ADS_set.size, hsize, hc]
    rfl
  · intro hc
    rw [hret]
    refine ⟨hc, ?_⟩
    have hk : k ∈ t.keys := (hi.wf.count_eq_one_iff hasher k).mp hc
    have hk1 : k ∉ (t.erase hasher k).1.keys := by
      rw [hmem k]
      exact fun h => h.2 rfl
    have hpos : 1 ≤ t.curr_size := by
      rw [hi.wf.size]
      exact List.length_pos_of_mem hk
    have hload := hi.load
    have hlt : (t.erase hasher k).1.curr_size < 2 * (t.erase hasher k).1.table_size + 1 := by
      rw [hsize, hcap, hc]
      omega
    have hins := insert__of_not_grow hasher (f + 1) (t.erase hasher k).1 k hlt
    obtain ⟨hi2, hp, hs2, _⟩ := hi1.insert__of_some hasher hk1 hins
    have hk2 : k ∈ ((t.erase hasher k).1.prepend hasher k).keys :=
      hp.symm.subset (List.mem_cons_self _ _)
    refine ⟨(t.erase hasher k).1.prepend hasher k,
      ((t.erase hasher k).1.prepend hasher k).find hasher k, ?_, ?_, ?_,
      (hi2.wf.count_eq_one_iff hasher k).mpr hk2, ?_⟩
    · rw [ADS_set.insert_of_not_mem hasher hi1.wf hk1, hins]
      rfl
    · simp only [ADS_set.size, hs2, hsize, hc]
      omega
    · exact hcap
    · intro q
      refine hi.count_eq_of_mem_iff hasher hi2 q ?_
      rw [hp.mem_iff, List.mem_cons, hmem q]
      constructor
      · rintro (rfl | h)
        · exact hk
        · exact h.1
      · intro h
        by_cases e : q = k
        · exact Or.inl e
        · exact Or.inr ⟨h, e⟩

theorem erase_reinsert_witness :
    1 ≤ 7 ∧
    Reachable idHash 7 (⟨[[7], [], [37], [3], [4, 11], [], []], 7, 5⟩ : ADS_set Nat) ∧
    2 ≤ 2 ∧
    (⟨[[7], [], [37], [3], [4, 11], [], []], 7, 5⟩ : ADS_set Nat).count idHash 11 = 1 ∧
    ((⟨[[7], [], [37], [3], [4, 11], [], []], 7, 5⟩ : ADS_set Nat).erase idHash 11).2 = 1 ∧
    ∃ t1 it,
      ((⟨[[7], [], [37], [3], [4, 11], [], []], 7, 5⟩ : ADS_set Nat).erase idHash 11).1.insert
        idHash 2 11 = some (t1, it, true) ∧
      t1.size = (⟨[[7], [], [37], [3], [4, 11], [], []], 7, 5⟩ : ADS_set Nat).size ∧
      t1.table_size = (⟨[[7], [], [37], [3], [4, 11], [], []], 7, 5⟩ : ADS_set Nat).table_size ∧
      t1.count idHash 11 = 1 ∧
      ∀ q, t1.count idHash q
        = (⟨[[7], [], [37], [3], [4, 11], [], []], 7, 5⟩ : ADS_set Nat).count idHash q :=
  ⟨by decide, @Reachable.ctor_ilist Nat _ idHash 7 2 [7, 37, 3, 11, 4] _ (by decide),
    by decide, by decide,
    (erase_reinsert idHash 7 (by decide) _
      (@Reachable.ctor_ilist Nat _ idHash 7 2 [7, 37, 3, 11, 4] _ (by decide)) 11 2
      (by decide)).2 (by decide)⟩

theorem Iterator.eq_end_iff (it : Iterator Key) :
    it.eq ADS_set.end_ = true ↔ it.n = [] := by
  unfold Iterator.eq ADS_set.end_
  cases it.n <;> simp

theorem Inv.visited_eq {N : Nat} {t : ADS_set Key} (hi : Inv hasher N t) :
    (List.range t.size).map (fun k => (Iterator.advance t k t.begin).deref)
      = t.keys.map some := by
  obtain ⟨hv, hrem⟩ := t.begin_spec hi.wf.len
  apply List.ext_getElem
  · simp [ADS_set.size, hi.wf.size]
  · intro i h1 h2
    have hlt : i < t.keys.length := by simpa using h2
    have := Iterator.advance_spec t i t.begin hv (by rw [hrem]; omega)
    simp only [List.getElem_map, List.getElem_range]
    rw [Iterator.deref_eq_head t, this.2, hrem, List.head?_drop,
      List.getElem?_eq_getElem hlt]

/-- C7. Iteration completeness: in every reachable table, the iterator obtained from
`begin()` by fewer than `size()` increments is not `end()`, the one obtained by exactly
`size()` increments is `end()`, the keys dereferenced on the way contain no key twice and
contain a key exactly when its `count` is 1, and `begin() == end()` iff the table is empty. -/
theorem iteration_complete (N : Nat) (hN : 1 ≤ N) (t : ADS_set Key)
    (hr : Reachable hasher N t) :
    (∀ k, k < t.size → (Iterator.advance t k t.begin).ne ADS_set.end_ = true) ∧
    (Iterator.advance t t.size t.begin).eq ADS_set.end_ = true ∧
    ((List.range t.size).map (fun k => (Iterator.advance t k t.begin).deref)).Nodup ∧
    (∀ key, some key ∈ (List.range t.size).map
        (fun k => (Iterator.advance t k t.begin).deref) ↔ t.count hasher key = 1) ∧
    (t.begin.eq ADS_set.end_ = true ↔ t.empty = true) := by
  have hi := hr.inv hasher hN
  obtain ⟨hv, hrem⟩ := t.begin_spec hi.wf.len
  have hsz : t.size = t.keys.length := hi.wf.size
  rw [hi.visited_eq hasher]
  refine ⟨?_, ?_, ?_, ?_, ?_⟩
  · intro k hk
    have := Iterator.advance_spec t k t.begin hv (by rw [hrem]; omega)
    rw [Iterator.ne_end_iff, ne_eq, ← Iterator.remaining_eq_nil_iff t, this.2, hrem,
      List.drop_eq_nil_iff]
    omega
  · have := Iterator.advance_spec t t.size t.begin hv (by rw [hrem]; omega)
    rw [Iterator.eq_end_iff, ← Iterator.remaining_eq_nil_iff t, this.2, hrem,
      List.drop_eq_nil_iff]
    omega
  · exact hi.wf.nodup.map (Option.some_injective Key)
  · intro key
    rw [List.mem_map_of_injective (Option.some_injective Key),
      hi.wf.count_eq_one_iff hasher key]
  · rw [Iterator.eq_end_iff, ← Iterator.remaining_eq_nil_iff t, hrem]
    simp only [ADS_set.empty, beq_iff_eq, hi.wf.size]
    exact List.length_eq_zero.symm

theorem iteration_complete_witness :
    1 ≤ 7 ∧
    Reachable idHash 7 (⟨[[14], [8, 64, 1], [23], [10], [], [], []], 7, 6⟩ : ADS_set Nat) ∧
    (List.range 6).map (fun k => (Iterator.advance
        (⟨[[14], [8, 64, 1], [23], [10], [], [], []], 7, 6⟩ : ADS_set Nat) k
        (⟨[[14], [8, 64, 1], [23], [10], [], [], []], 7, 6⟩ : ADS_set Nat).begin).deref)
      = [some 14, some 8, some 64, some 1, some 23, some 10] ∧
    (Iterator.advance (⟨[[14], [8, 64, 1], [23], [10], [], [], []], 7, 6⟩ : ADS_set Nat)
        (⟨[[14], [8, 64, 1], [23], [10], [], [], []], 7, 6⟩ : ADS_set Nat).size
        (⟨[[14], [8, 64, 1], [23], [10], [], [], []], 7, 6⟩ : ADS_set Nat).begin).eq
      ADS_set.end_ = true :=
  ⟨by decide, @Reachable.ctor_ilist Nat _ idHash 7 2 [14, 1, 23, 64, 8, 10] _ (by decide),
    by decide,
    (iteration_complete idHash 7 (by decide) _
      (@Reachable.ctor_ilist Nat _ idHash 7 2 [14, 1, 23, 64, 8, 10] _ (by decide))).2.1⟩

theorem Inv.eq_spec {N : Nat} {a b : ADS_set Key} (ha : Inv hasher N a)
    (hb : Inv hasher N b) :
    ∃ r, a.eq hasher b = some r ∧
      (r = true ↔ ∀ k, a.count hasher k = b.count hasher k) := by
  obtain ⟨hv, hrem⟩ := a.begin_spec ha.wf.len
  have hloop := a.eqLoop_spec hasher b a.table.flatten.length a.begin hv
    (by rw [hrem]; exact Nat.le_refl _)
  rw [hrem] at hloop
  have hall : (a.keys.all (fun k => decide (b.count hasher k ≠ 0)) = true) ↔
      ∀ k ∈ a.keys, k ∈ b.keys := by
    rw [List.all_eq_true]
    constructor
    · intro h k hk
      have := h k hk
      simp only [decide_eq_true_eq] at this
      by_contra hkb
      exact this ((hb.wf.count_eq_zero_iff hasher k).mpr hkb)
    · intro h k hk
      simp only [decide_eq_true_eq]
      rw [(hb.wf.count_eq_one_iff hasher k).mpr (h k hk)]
      exact Nat.one_ne_zero
  have hcount : (∀ k, a.count hasher k = b.count hasher k) ↔ ∀ k, k ∈ a.keys ↔ k ∈ b.keys := by
    constructor
    · intro h k
      rw [← ha.wf.count_eq_one_iff hasher k, ← hb.wf.count_eq_one_iff hasher k, h k]
    · intro h k
      exact (hb.count_eq_of_mem_iff hasher ha k (h k))
  by_cases hs : a.curr_size = b.curr_size
  · refine ⟨_, by rw [ADS_set.eq, if_neg (fun h => h hs)]; exact hloop, ?_⟩
    rw [hall, hcount]
    constructor
    · intro hsub k
      have hperm : a.keys.Perm b.keys :=
        (List.subperm_of_subset ha.wf.nodup hsub).perm_of_length_le
          (by rw [← ha.wf.size, ← hb.wf.size, hs])
      exact hperm.mem_iff
    · intro h k hk
      exact (h k).mp hk
  · refine ⟨false, by rw [ADS_set.eq, if_pos hs], ?_⟩
    rw [hcount]
    constructor
    · intro h
      cases h
    · intro h
      exfalso
      apply hs
      rw [ha.wf.size, hb.wf.size]
      exact ((List.perm_ext_iff_of_nodup ha.wf.nodup hb.wf.nodup).mpr h).length_eq

/-- C8. Content equality: for all reachable tables `a` and `b` of the same `N`, `a == b`
returns, and returns true iff `count_a(k) == count_b(k)` for every key `k`; `b == a` returns
the same value, `a != b` returns its negation, and two tables built by inserting two key
sequences with the same set of keys compare equal. -/
theorem content_equality (N : Nat) (hN : 1 ≤ N) (a b : ADS_set Key)
    (ha : Reachable hasher N a) (hb : Reachable hasher N b) :
    (∃ r, a.eq hasher b = some r ∧ (r = true ↔ ∀ k, a.count hasher k = b.count hasher k) ∧
      b.eq hasher a = some r ∧ a.ne hasher b = some (!r)) ∧
    (∀ (fuel : Nat) (l1 l2 : List Key), 2 ≤ fuel → (∀ k, k ∈ l1 ↔ k ∈ l2) →
      ∃ t1 t2, ADS_set.ctor_ilist hasher fuel N l1 = some t1 ∧
        ADS_set.ctor_ilist hasher fuel N l2 = some t2 ∧ t1.eq hasher t2 = some true) := by
  have hia := ha.inv hasher hN
  have hib := hb.inv hasher hN
  constructor
  · obtain ⟨r, hr, hiff⟩ := hia.eq_spec hasher hib
    obtain ⟨r2, hr2, hiff2⟩ := hib.eq_spec hasher hia
    have hrr : r2 = r := by
      have h1 : r2 = true ↔ r = true := by
        rw [hiff, hiff2]
        exact ⟨fun h k => (h k).symm, fun h k => (h k).symm⟩
      cases r <;> cases r2 <;> simp at h1 ⊢
    refine ⟨r, hr, hiff, by rw [hr2, hrr], ?_⟩
    rw [ADS_set.ne, hr]
    rfl
  · intro fuel l1 l2 hfuel hsame
    obtain ⟨f, rfl⟩ : ∃ f, fuel = f + 2 := ⟨fuel - 2, by omega⟩
    obtain ⟨t1, h1, hi1, hmem1, _⟩ :=
      (@Inv.fresh_inv Key _ hasher N hN).insert_ilist_spec hasher f l1
    obtain ⟨t2, h2, hi2, hmem2, _⟩ :=
      (@Inv.fresh_inv Key _ hasher N hN).insert_ilist_spec hasher f l2
    refine ⟨t1, t2, by rw [ADS_set.ctor_ilist, ADS_set.ctor_eq]; exact h1,
      by rw [ADS_set.ctor_ilist, ADS_set.ctor_eq]; exact h2, ?_⟩
    obtain ⟨r, hr, hiff⟩ := hi1.eq_spec hasher hi2
    have : r = true := by
      rw [hiff]
      intro k
      refine hi2.count_eq_of_mem_iff hasher hi1 k ?_
      rw [hmem1 k, hmem2 k]
      simp [ADS_set.keys, hsame k]
    rw [hr, this]

theorem content_equality_witness :
    1 ≤ 7 ∧
    Reachable idHash 7 (⟨[[14], [8, 1], [], [], [], [], []], 7, 3⟩ : ADS_set Nat) ∧
    Reachable idHash 7 (⟨[[14], [1, 8], [], [], [], [], []], 7, 3⟩ : ADS_set Nat) ∧
    (⟨[[14], [8, 1], [], [], [], [], []], 7, 3⟩ : ADS_set Nat).eq idHash
      ⟨[[14], [1, 8], [], [], [], [], []], 7, 3⟩ = some true ∧
    ∃ r, (⟨[[14], [8, 1], [], [], [], [], []], 7, 3⟩ : ADS_set Nat).eq idHash
        ⟨[[14], [1, 8], [], [], [], [], []], 7, 3⟩ = some r ∧
      (r = true ↔ ∀ k, (⟨[[14], [8, 1], [], [], [], [], []], 7, 3⟩ : ADS_set Nat).count idHash k
        = (⟨[[14], [1, 8], [], [], [], [], []], 7, 3⟩ : ADS_set Nat).count idHash k) ∧
      (⟨[[14], [1, 8], [], [], [], [], []], 7, 3⟩ : ADS_set Nat).eq idHash
        ⟨[[14], [8, 1], [], [], [], [], []], 7, 3⟩ = some r ∧
      (⟨[[14], [8, 1], [], [], [], [], []], 7, 3⟩ : ADS_set Nat).ne idHash
        ⟨[[14], [1, 8], [], [], [], [], []], 7, 3⟩ = some (!r) :=
  ⟨by decide, @Reachable.ctor_ilist Nat _ idHash 7 2 [14, 1, 8] _ (by decide),
    @Reachable.ctor_ilist Nat _ idHash 7 2 [14, 8, 1] _ (by decide), by decide,
    (content_equality idHash 7 (by decide) _ _
      (@Reachable.ctor_ilist Nat _ idHash 7 2 [14, 1, 8] _ (by decide))
      (@Reachable.ctor_ilist Nat _ idHash 7 2 [14, 8, 1] _ (by decide))).1⟩

theorem insert_ilist_no_grow (fuel : Nat) (l : List Key) (t t1 : ADS_set Key)
    (h : t.insert_ilist hasher fuel l = some t1)
    (hload : t.curr_size + l.length ≤ 2 * t.table_size + 1) :
    t1.table_size = t.table_size := by
  induction l generalizing t with
  | nil =>
    simp only [ADS_set.insert_ilist, Option.some.injEq] at h
    rw [← h]
  | cons k rest ih =>
    simp only [List.length_cons] at hload
    rw [ADS_set.insert_ilist] at h
    by_cases hc : t.count hasher k = 0
    · rw [if_pos hc] at h
      cases fuel with
      | zero => simp [ADS_set.insert_] at h
      | succ f =>
        rw [insert__of_not_grow hasher f t k (by omega)] at h
        have := ih (t.prepend hasher k) h (by simp only [ADS_set.prepend]; omega)
        rw [this]
        rfl
    · rw [if_neg hc] at h
      exact ih t h (by omega)

/-- C9 as stated fails: the eleven distinct keys of the table `f` of `main.cpp`, inserted into
an empty table of initial capacity 7, leave the capacity at 7. -/
theorem rehash_example_counterexample :
    [4, 7, 1, 5, 3, 6, 0, 8, 10, 2, 9].Nodup ∧ [4, 7, 1, 5, 3, 6, 0, 8, 10, 2, 9].length = 11 ∧
    ∃ t, ADS_set.ctor_ilist idHash 2 7 [4, 7, 1, 5, 3, 6, 0, 8, 10, 2, 9] = some t ∧
      ¬ (7 < t.table_size) :=
  ⟨by decide, by decide, _, rfl, by decide⟩

/-- C9, amended. Inserting 11 distinct keys into an empty table of initial capacity `N = 7`
triggers no rehash: the capacity afterwards is still 7, `size() == 11`, and every one of the
11 keys is findable (`count == 1` and `find != end()`). -/
theorem rehash_example (keys : List Key) (hnd : keys.Nodup) (hlen : keys.length = 11)
    (fuel : Nat) (hfuel : 2 ≤ fuel) :
    ∃ t, ADS_set.ctor_ilist hasher fuel 7 keys = some t ∧ t.table_size = 7 ∧ t.size = 11 ∧
      ∀ k ∈ keys, t.count hasher k = 1 ∧ (t.find hasher k).ne ADS_set.end_ = true := by
  obtain ⟨f, rfl⟩ : ∃ f, fuel = f + 2 := ⟨fuel - 2, by omega⟩
  obtain ⟨t, h, hi, hmem, _⟩ :=
    (@Inv.fresh_inv Key _ hasher 7 (by omega)).insert_ilist_spec hasher f keys
  have hmem2 : ∀ q, q ∈ t.keys ↔ q ∈ keys := by
    intro q; rw [hmem q]; simp [ADS_set.keys]
  refine ⟨t, by rw [ADS_set.ctor_ilist, ADS_set.ctor_eq]; exact h, ?_, ?_, ?_⟩
  · exact insert_ilist_no_grow hasher _ keys _ t h (by simp only [hlen]; omega)
  · rw [hi.size_eq_card hasher keys hmem2, List.toFinset_card_of_nodup hnd, hlen]
  · intro k hk
    have hk2 := (hmem2 k).mpr hk
    exact ⟨(hi.wf.count_eq_one_iff hasher k).mpr hk2, (hi.wf.find_ne_end_iff hasher k).mpr hk2⟩

theorem rehash_example_witness :
    [4, 7, 1, 5, 3, 6, 0, 8, 10, 2, 9].Nodup ∧ [4, 7, 1, 5, 3, 6, 0, 8, 10, 2, 9].length = 11 ∧
    2 ≤ 2 ∧
    ∃ t, ADS_set.ctor_ilist idHash 2 7 [4, 7, 1, 5, 3, 6, 0, 8, 10, 2, 9] = some t ∧
      t.table_size = 7 ∧ t.size = 11 ∧
      ∀ k ∈ [4, 7, 1, 5, 3, 6, 0, 8, 10, 2, 9],
        t.count idHash k = 1 ∧ (t.find idHash k).ne ADS_set.end_ = true :=
  ⟨by decide, by decide, by decide,
    rehash_example idHash [4, 7, 1, 5, 3, 6, 0, 8, 10, 2, 9] (by decide) (by decide) 2
      (by decide)⟩

/-- C10. Capacity monotonicity: every reachable table has a capacity of at least `N`; every
single-key, list or range insert on it returns a table whose capacity is at least the one
before, and `erase` leaves a capacity at least the one before; and the tables returned by
the default constructor, by `clear()` and by both assignments have a capacity of at least
`N`. -/
theorem capacity_monotone (N : Nat) (hN : 1 ≤ N) (t : ADS_set Key) (hr : Reachable hasher N t)
    (fuel : Nat) (hfuel : 2 ≤ fuel) :
    N ≤ t.table_size ∧
    (∀ key, ∃ r, t.insert hasher fuel key = some r ∧ t.table_size ≤ r.1.table_size) ∧
    (∀ ilist, ∃ t1, t.insert_ilist hasher fuel ilist = some t1 ∧
      t.table_size ≤ t1.table_size) ∧
    (∀ range, ∃ t1, t.insert_range hasher fuel range = some t1 ∧
      t.table_size ≤ t1.table_size) ∧
    (∀ key, t.table_size ≤ (t.erase hasher key).1.table_size) ∧
    (∃ t0 : ADS_set Key, ADS_set.ctor hasher fuel N = some t0 ∧ N ≤ t0.table_size) ∧
    N ≤ (t.clear N).table_size ∧
    (∀ other, Reachable hasher N other →
      ∃ t1, t.assign hasher fuel N other = some t1 ∧ N ≤ t1.table_size) ∧
    (∀ ilist, ∃ t1, t.assign_ilist hasher fuel N ilist = some t1 ∧ N ≤ t1.table_size) := by
  obtain ⟨f, rfl⟩ : ∃ f, fuel = f + 2 := ⟨fuel - 2, by omega⟩
  have hi := hr.inv hasher hN
  have hfresh := @Inv.fresh_inv Key _ hasher N hN
  refine ⟨hi.cap, ?_, ?_, ?_, ?_, ⟨_, ADS_set.ctor_eq hasher _ N, Nat.le_refl _⟩,
    Nat.le_refl _, ?_, ?_⟩
  · intro key
    obtain ⟨t1, h, _, _, _, hcap⟩ := hi.insert hasher key f
    exact ⟨_, h, hcap⟩
  · intro ilist
    obtain ⟨t1, h, _, _, hcap⟩ := hi.insert_ilist_spec hasher f ilist
    exact ⟨t1, h, hcap⟩
  · intro range
    obtain ⟨t1, h, _, _, hcap⟩ := hi.insert_ilist_spec hasher f range
    exact ⟨t1, by rw [ADS_set.insert_range_eq]; exact h, hcap⟩
  · intro key
    rw [(hi.erase hasher key).2.2.2.2.1]
  · intro other ho
    have hio := ho.inv hasher hN
    obtain ⟨t1, h, hi1, _, _⟩ := hfresh.insert_ilist_spec hasher f other.keys
    refine ⟨t1, ?_, hi1.cap⟩
    rw [ADS_set.assign, ADS_set.range_for_eq _ hio.wf.len]
    simp only [Option.some_bind, ADS_set.foldlM_insert_eq]
    exact h
  · intro ilist
    obtain ⟨t1, h, hi1, _, _⟩ := hfresh.insert_ilist_spec hasher f ilist
    exact ⟨t1, h, hi1.cap⟩

theorem capacity_monotone_witness :
    1 ≤ 7 ∧
    Reachable idHash 7 (⟨[[15, 0], [1], [2], [3], [4], [5], [6], [7], [8], [9], [10], [11],
      [12], [13], [14]], 15, 16⟩ : ADS_set Nat) ∧
    2 ≤ 2 ∧
    7 ≤ (⟨[[15, 0], [1], [2], [3], [4], [5], [6], [7], [8], [9], [10], [11],
      [12], [13], [14]], 15, 16⟩ : ADS_set Nat).table_size :=
  ⟨by decide, @Reachable.ctor_ilist Nat _ idHash 7 2 (List.range 16) _ (by decide),
    by decide,
    (capacity_monotone idHash 7 (by decide) _
      (@Reachable.ctor_ilist Nat _ idHash 7 2 (List.range 16) _ (by decide)) 2
      (by decide)).1⟩

theorem ADS_set.beginLoop_all_nil (t : ADS_set Key) (remaining it : Nat)
    (h : ∀ j, it ≤ j → j < it + remaining → t.head j = []) :
    t.beginLoop remaining it = ADS_set.end_ := by
  induction remaining generalizing it with
  | zero => rfl
  | succ r ih =>
    rw [ADS_set.beginLoop, h it (Nat.le_refl _) (by omega)]
    exact ih (it + 1) (fun j h1 h2 => h j (by omega) (by omega))

theorem ADS_set.beginLoop_first (t : ADS_set Key) (remaining it i : Nat) (k : Key)
    (next : List Key) (h1 : it ≤ i) (h2 : i < it + remaining) (hi : t.head i = k :: next)
    (h : ∀ j, it ≤ j → j < i → t.head j = []) :
    t.beginLoop remaining it = ⟨k :: next, i, t.table_size⟩ := by
  induction remaining generalizing it with
  | zero => omega
  | succ r ih =>
    rw [ADS_set.beginLoop]
    by_cases e : it = i
    · subst e
      rw [hi]
    · rw [h it (Nat.le_refl _) (by omega)]
      exact ih (it + 1) (by omega) (by omega) (fun j h3 h4 => h j (by omega) h4)

theorem head_fresh (n j : Nat) : (⟨List.replicate n [], n, 0⟩ : ADS_set Key).head j = [] := by
  simp only [ADS_set.head, List.getD_eq_getElem?_getD, List.getElem?_replicate]
  split <;> rfl

theorem begin_fresh (n : Nat) :
    (⟨List.replicate n [], n, 0⟩ : ADS_set Key).begin = ADS_set.end_ :=
  ADS_set.beginLoop_all_nil _ _ _ (fun j _ _ => head_fresh n j)

theorem count_fresh (n : Nat) (k : Key) :
    (⟨List.replicate n [], n, 0⟩ : ADS_set Key).count hasher k = 0 := by
  rw [ADS_set.count, head_fresh]
  rfl

/-- C11. `clear()`: for `N ≥ 1` and every table, reachable or not, after `clear()` the size
is 0, `empty()` is true, the capacity is the initial capacity `N`, `count(k) == 0` for every
key `k`, and `begin() == end()`. -/
theorem clear_postcondition (N : Nat) (hN : 1 ≤ N) (t : ADS_set Key) :
    (t.clear N).size = 0 ∧ (t.clear N).empty = true ∧ (t.clear N).table_size = N ∧
    1 ≤ (t.clear N).table_size ∧
    (∀ k, (t.clear N).count hasher k = 0) ∧
    (t.clear N).begin.eq ADS_set.end_ = true := by
  refine ⟨rfl, rfl, rfl, hN, fun k => count_fresh hasher N k, ?_⟩
  rw [ADS_set.clear, begin_fresh]
  rfl

theorem clear_postcondition_witness :
    1 ≤ 7 ∧
    (⟨[[15, 0], [1], [2], [3], [4], [5], [6], [7], [8], [9], [10], [11],
      [12], [13], [14]], 15, 16⟩ : ADS_set Nat).clear 7
      = ⟨[[], [], [], [], [], [], []], 7, 0⟩ ∧
    ((⟨[[15, 0], [1], [2], [3], [4], [5], [6], [7], [8], [9], [10], [11],
      [12], [13], [14]], 15, 16⟩ : ADS_set Nat).clear 7).size = 0 ∧
    ((⟨[[15, 0], [1], [2], [3], [4], [5], [6], [7], [8], [9], [10], [11],
      [12], [13], [14]], 15, 16⟩ : ADS_set Nat).clear 7).empty = true ∧
    ((⟨[[15, 0], [1], [2], [3], [4], [5], [6], [7], [8], [9], [10], [11],
      [12], [13], [14]], 15, 16⟩ : ADS_set Nat).clear 7).table_size = 7 ∧
    1 ≤ ((⟨[[15, 0], [1], [2], [3], [4], [5], [6], [7], [8], [9], [10], [11],
      [12], [13], [14]], 15, 16⟩ : ADS_set Nat).clear 7).table_size ∧
    (∀ k, ((⟨[[15, 0], [1], [2], [3], [4], [5], [6], [7], [8], [9], [10], [11],
      [12], [13], [14]], 15, 16⟩ : ADS_set Nat).clear 7).count idHash k = 0) ∧
    ((⟨[[15, 0], [1], [2], [3], [4], [5], [6], [7], [8], [9], [10], [11],
      [12], [13], [14]], 15, 16⟩ : ADS_set Nat).clear 7).begin.eq ADS_set.end_ = true :=
  ⟨by decide, by decide, clear_postcondition idHash 7 (by decide) _⟩

theorem range_for_fresh (n : Nat) :
    (⟨List.replicate n [], n, 0⟩ : ADS_set Key).range_for = some [] := by
  rw [ADS_set.range_for, begin_fresh]
  simp [ADS_set.iterate, Iterator.ne, ADS_set.end_]

/-- C20. Self-assignment: for `N ≥ 1`, `a = a` runs `clear()` and then walks the table
`clear()` has just emptied, so the loop body never runs; the result, which is also what
'clear the destination, then insert every key obtained by iterating the source as it is at
that moment' gives, has `size() == 0`, capacity `N` and `count(k) == 0` for every key `k`,
whatever `a` held. -/
theorem self_assignment (fuel steps N : Nat) (hN : 1 ≤ N) (t : ADS_set Key) :
    ∃ t1, t.assign_self hasher fuel steps N = some t1 ∧
      t.assign hasher fuel N (t.clear N) = some t1 ∧
      t1.size = 0 ∧ t1.table_size = N ∧ 1 ≤ t1.table_size ∧ ∀ k, t1.count hasher k = 0 := by
  refine ⟨t.clear N, ?_, ?_, rfl, rfl, hN, fun k => count_fresh hasher N k⟩
  · rw [ADS_set.assign_self, ADS_set.clear, begin_fresh]
    cases steps <;> simp [ADS_set.assignSelfLoop, Iterator.ne, ADS_set.end_]
  · rw [ADS_set.assign, ADS_set.clear, range_for_fresh]
    rfl

theorem self_assignment_witness :
    1 ≤ 7 ∧
    (⟨[[7], [], [37], [3], [11, 4], [], []], 7, 5⟩ : ADS_set Nat).assign_self idHash 2 5 7
      = some ⟨[[], [], [], [], [], [], []], 7, 0⟩ ∧
    ∃ t1, (⟨[[7], [], [37], [3], [11, 4], [], []], 7, 5⟩ : ADS_set Nat).assign_self
        idHash 2 5 7 = some t1 ∧
      (⟨[[7], [], [37], [3], [11, 4], [], []], 7, 5⟩ : ADS_set Nat).assign idHash 2 7
        ((⟨[[7], [], [37], [3], [11, 4], [], []], 7, 5⟩ : ADS_set Nat).clear 7) = some t1 ∧
      t1.size = 0 ∧ t1.table_size = 7 ∧ 1 ≤ t1.table_size ∧ ∀ k, t1.count idHash k = 0 :=
  ⟨by decide, by decide, self_assignment idHash 2 5 7 (by decide) _⟩

theorem Inv.foldlM_insert__total {N : Nat} (f : Nat) (vect : List Key) {t : ADS_set Key}
    (hi : Inv hasher N t) (hnd : vect.Nodup) (hdis : ∀ k ∈ vect, k ∉ t.keys) :
    ∃ t1, vect.foldlM (fun a k => a.insert_ hasher (f + 2) k) t = some t1 := by
  induction vect generalizing t with
  | nil => exact ⟨t, rfl⟩
  | cons k rest ih =>
    obtain ⟨hnk, hndr⟩ := List.nodup_cons.mp hnd
    obtain ⟨t2, h2, hi2, hp, _⟩ := hi.insert_ hasher (hdis k (List.mem_cons_self _ _)) f
    rw [List.foldlM_cons, h2]
    refine ih hi2 hndr ?_
    intro q hq hmem
    rcases List.mem_cons.mp (hp.subset hmem) with rfl | h
    · exact hnk hq
    · exact hdis q (List.mem_cons_of_mem _ hq) h

theorem Inv.assign_spec {N : Nat} (hN : 0 < N) (f : Nat) (t : ADS_set Key) {other : ADS_set Key}
    (ho : Inv hasher N other) :
    ∃ t1, t.assign hasher (f + 2) N other = some t1 ∧ Inv hasher N t1 ∧
      ∀ q, q ∈ t1.keys ↔ q ∈ other.keys := by
  obtain ⟨t1, h, hi1, hmem, _⟩ :=
    (@Inv.fresh_inv Key _ hasher N hN).insert_ilist_spec hasher f other.keys
  refine ⟨t1, ?_, hi1, ?_⟩
  · rw [ADS_set.assign, ADS_set.range_for_eq _ ho.wf.len]
    simp only [Option.some_bind, ADS_set.foldlM_insert_eq]
    exact h
  · intro q
    rw [hmem q]
    simp [ADS_set.keys]

theorem Inv.ctor_copy_spec {N : Nat} (hN : 0 < N) (f : Nat) {other : ADS_set Key}
    (ho : Inv hasher N other) :
    ∃ t1, ADS_set.ctor_copy hasher (f + 2) N other = some t1 ∧ Inv hasher N t1 ∧
      ∀ q, q ∈ t1.keys ↔ q ∈ other.keys := by
  have hfresh := @Inv.fresh_inv Key _ hasher N hN
  have hdis : ∀ k ∈ other.keys, k ∉ (⟨List.replicate N [], N, 0⟩ : ADS_set Key).keys := by
    intro k _
    simp [ADS_set.keys]
  obtain ⟨t1, h⟩ := hfresh.foldlM_insert__total hasher f other.keys ho.wf.nodup hdis
  obtain ⟨hi1, hmem, _⟩ := hfresh.foldlM_insert__of_some hasher other.keys ho.wf.nodup hdis h
  refine ⟨t1, ?_, hi1, ?_⟩
  · rw [ADS_set.ctor_copy, ADS_set.ctor_eq, ADS_set.range_for_eq _ ho.wf.len]
    exact h
  · intro q
    rw [hmem q]
    simp [ADS_set.keys]

theorem Inv.same_keys {N : Nat} {a b : ADS_set Key} (ha : Inv hasher N a)
    (hb : Inv hasher N b) (hmem : ∀ q, q ∈ a.keys ↔ q ∈ b.keys) :
    a.eq hasher b = some true ∧ a.size = b.size ∧ (a.empty = false ↔ b.empty = false) ∧
      ∀ k, a.count hasher k = b.count hasher k := by
  have hcount : ∀ k, a.count hasher k = b.count hasher k :=
    fun k => hb.count_eq_of_mem_iff hasher ha k (hmem k)
  have hsize : a.curr_size = b.curr_size := by
    rw [ha.wf.size, hb.wf.size]
    exact ((List.perm_ext_iff_of_nodup ha.wf.nodup hb.wf.nodup).mpr hmem).length_eq
  obtain ⟨r, hr, hiff⟩ := ha.eq_spec hasher hb
  have hrt : r = true := hiff.mpr hcount
  refine ⟨by rw [hr, hrt], hsize, ?_, hcount⟩
  simp only [ADS_set.empty, hsize]

/-- C12. Copy and assignment: for a reachable table `b` and any table `a` held by a different
object, `a = b` returns a table `a1` with `a1 == b`, `a1.size() == b.size()`, `a1.empty()` false iff
`b.empty()` is false, and `count(k)` equal in `a1` and `b` for every key `k`, whatever `a`
held; the same holds for the table copy-constructed from `b`. Both operations take `b` by
const reference and return only the new destination, so `b` is unchanged. -/
theorem copy_and_assignment (N : Nat) (hN : 1 ≤ N) (a b : ADS_set Key)
    (hb : Reachable hasher N b) (fuel : Nat) (hfuel : 2 ≤ fuel) :
    (∃ a1, a.assign hasher fuel N b = some a1 ∧ a1.eq hasher b = some true ∧
      a1.size = b.size ∧ (a1.empty = false ↔ b.empty = false) ∧
      ∀ k, a1.count hasher k = b.count hasher k) ∧
    (∃ a1, ADS_set.ctor_copy hasher fuel N b = some a1 ∧ a1.eq hasher b = some true ∧
      a1.size = b.size ∧ (a1.empty = false ↔ b.empty = false) ∧
      ∀ k, a1.count hasher k = b.count hasher k) := by
  obtain ⟨f, rfl⟩ : ∃ f, fuel = f + 2 := ⟨fuel - 2, by omega⟩
  have hib := hb.inv hasher hN
  constructor
  · obtain ⟨a1, h, hi1, hmem⟩ := hib.assign_spec hasher hN f a
    exact ⟨a1, h, hi1.same_keys hasher hib hmem⟩
  · obtain ⟨a1, h, hi1, hmem⟩ := hib.ctor_copy_spec hasher hN f
    exact ⟨a1, h, hi1.same_keys hasher hib hmem⟩

theorem copy_and_assignment_witness :
    1 ≤ 7 ∧
    Reachable idHash 7 (⟨[[7], [], [37], [3], [11, 4], [], []], 7, 5⟩ : ADS_set Nat) ∧
    2 ≤ 2 ∧
    (⟨[[14], [8, 64, 1], [23], [10], [], [], []], 7, 6⟩ : ADS_set Nat).assign idHash 2 7
      ⟨[[7], [], [37], [3], [11, 4], [], []], 7, 5⟩
      = some ⟨[[7], [], [37], [3], [4, 11], [], []], 7, 5⟩ ∧
    ∃ a1, (⟨[[14], [8, 64, 1], [23], [10], [], [], []], 7, 6⟩ : ADS_set Nat).assign idHash 2 7
        ⟨[[7], [], [37], [3], [11, 4], [], []], 7, 5⟩ = some a1 ∧
      a1.eq idHash ⟨[[7], [], [37], [3], [11, 4], [], []], 7, 5⟩ = some true ∧
      a1.size = (⟨[[7], [], [37], [3], [11, 4], [], []], 7, 5⟩ : ADS_set Nat).size ∧
      (a1.empty = false ↔
        (⟨[[7], [], [37], [3], [11, 4], [], []], 7, 5⟩ : ADS_set Nat).empty = false) ∧
      ∀ k, a1.count idHash k
        = (⟨[[7], [], [37], [3], [11, 4], [], []], 7, 5⟩ : ADS_set Nat).count idHash k :=
  ⟨by decide, @Reachable.ctor_ilist Nat _ idHash 7 2 [4, 7, 11, 3, 37] _ (by decide),
    by decide, by decide,
    (copy_and_assignment idHash 7 (by decide) _ _
      (@Reachable.ctor_ilist Nat _ idHash 7 2 [4, 7, 11, 3, 37] _ (by decide)) 2
      (by decide)).1⟩

theorem WF.structural {t : ADS_set Key} (hw : WF hasher t) : t.Structural hasher := by
  refine ⟨fun i k hk => hw.hashed i k hk, hw.nodup, ?_⟩
  rw [← List.length_flatten]
  exact hw.size

/-- C13. Structural invariant: for `N ≥ 1`, the predicate 'every stored key lies in the chain
of bucket `hash(key) mod capacity`, no two stored entries hold equal keys, and `size` is the
total number of entries over all chains' holds of the default-constructed table and of every
reachable table, and every public operation on a reachable table (the three inserts, `erase`,
`clear`, both assignments, the constructors, `swap`) returns a table of which it holds,
whether or not an insert triggers a rehash. -/
theorem structural_invariant (N : Nat) (hN : 1 ≤ N) (fuel : Nat) (hfuel : 2 ≤ fuel) :
    (∃ t0 : ADS_set Key, ADS_set.ctor hasher fuel N = some t0 ∧ t0.Structural hasher) ∧
    (∀ ilist, ∃ t1, ADS_set.ctor_ilist hasher fuel N ilist = some t1 ∧
      t1.Structural hasher) ∧
    (∀ range, ∃ t1, ADS_set.ctor_range hasher fuel N range = some t1 ∧
      t1.Structural hasher) ∧
    ∀ t, Reachable hasher N t →
      t.Structural hasher ∧
      (∀ key, ∃ r, t.insert hasher fuel key = some r ∧ r.1.Structural hasher) ∧
      (∀ ilist, ∃ t1, t.insert_ilist hasher fuel ilist = some t1 ∧ t1.Structural hasher) ∧
      (∀ range, ∃ t1, t.insert_range hasher fuel range = some t1 ∧ t1.Structural hasher) ∧
      (∀ key, (t.erase hasher key).1.Structural hasher) ∧
      (t.clear N).Structural hasher ∧
      (∀ other, Reachable hasher N other →
        ∃ t1, t.assign hasher fuel N other = some t1 ∧ t1.Structural hasher) ∧
      (∀ ilist, ∃ t1, t.assign_ilist hasher fuel N ilist = some t1 ∧
        t1.Structural hasher) ∧
      (∃ t1, ADS_set.ctor_copy hasher fuel N t = some t1 ∧ t1.Structural hasher) ∧
      (∀ other, Reachable hasher N other →
        (t.swap other).1.Structural hasher ∧ (t.swap other).2.Structural hasher) := by
  obtain ⟨f, rfl⟩ : ∃ f, fuel = f + 2 := ⟨fuel - 2, by omega⟩
  have hfresh := @Inv.fresh_inv Key _ hasher N hN
  refine ⟨⟨_, ADS_set.ctor_eq hasher _ N, hfresh.wf.structural hasher⟩, ?_, ?_, ?_⟩
  · intro ilist
    obtain ⟨t1, h, hi1, _⟩ := hfresh.insert_ilist_spec hasher f ilist
    exact ⟨t1, by rw [ADS_set.ctor_ilist, ADS_set.ctor_eq]; exact h, hi1.wf.structural hasher⟩
  · intro range
    obtain ⟨t1, h, hi1, _⟩ := hfresh.insert_ilist_spec hasher f range
    refine ⟨t1, ?_, hi1.wf.structural hasher⟩
    rw [ADS_set.ctor_range, ADS_set.ctor_eq]
    simp only [Option.some_bind, ADS_set.insert_range_eq]
    exact h
  · intro t hr
    have hi := hr.inv hasher hN
    refine ⟨hi.wf.structural hasher, ?_, ?_, ?_, ?_, hfresh.wf.structural hasher, ?_, ?_, ?_,
      ?_⟩
    · intro key
      obtain ⟨t1, h, hi1, _⟩ := hi.insert hasher key f
      exact ⟨_, h, hi1.wf.structural hasher⟩
    · intro ilist
      obtain ⟨t1, h, hi1, _⟩ := hi.insert_ilist_spec hasher f ilist
      exact ⟨t1, h, hi1.wf.structural hasher⟩
    · intro range
      obtain ⟨t1, h, hi1, _⟩ := hi.insert_ilist_spec hasher f range
      exact ⟨t1, by rw [ADS_set.insert_range_eq]; exact h, hi1.wf.structural hasher⟩
    · intro key
      exact (hi.erase hasher key).1.wf.structural hasher
    · intro other ho
      obtain ⟨t1, h, hi1, _⟩ := (ho.inv hasher hN).assign_spec hasher hN f t
      exact ⟨t1, h, hi1.wf.structural hasher⟩
    · intro ilist
      obtain ⟨t1, h, hi1, _⟩ := hfresh.insert_ilist_spec hasher f ilist
      exact ⟨t1, h, hi1.wf.structural hasher⟩
    · obtain ⟨t1, h, hi1, _⟩ := hi.ctor_copy_spec hasher hN f
      exact ⟨t1, h, hi1.wf.structural hasher⟩
    · intro other ho
      exact ⟨(ho.inv hasher hN).wf.structural hasher, hi.wf.structural hasher⟩

theorem structural_invariant_witness :
    1 ≤ 7 ∧ 2 ≤ 2 ∧
    Reachable idHash 7 (⟨[[15, 0], [1], [2], [3], [4], [5], [6], [7], [8], [9], [10], [11],
      [12], [13], [14]], 15, 16⟩ : ADS_set Nat) ∧
    (⟨[[15, 0], [1], [2], [3], [4], [5], [6], [7], [8], [9], [10], [11],
      [12], [13], [14]], 15, 16⟩ : ADS_set Nat).Structural idHash :=
  ⟨by decide, by decide,
    @Reachable.ctor_ilist Nat _ idHash 7 2 (List.range 16) _ (by decide),
    ((structural_invariant idHash 7 (by decide) 2 (by decide)).2.2.2 _
      (@Reachable.ctor_ilist Nat _ idHash 7 2 (List.range 16) _ (by decide))).1⟩

theorem growthTerm_succ_left (c j : Nat) :
    growthTerm c (j + 1) = growthTerm (2 * c + 1) j := by
  induction j with
  | zero => rfl
  | succ j ih =>
    rw [growthTerm, ih]
    rfl

theorem growLoop_first (steps c s : Nat) (hsteps : 0 < steps) (h : s ≤ c + steps) :
    ∃ j, 1 ≤ j ∧ growLoop steps c s = growthTerm c j ∧ s ≤ 2 * growthTerm c j ∧
      ∀ i, 1 ≤ i → i < j → ¬ (s ≤ 2 * growthTerm c i) := by
  induction steps generalizing c with
  | zero => omega
  | succ st ih =>
    rw [growLoop]
    by_cases hc : (c * 2 + 1) * 2 < s
    · rw [if_pos hc]
      obtain ⟨j, hj1, hj2, hj3, hj4⟩ := ih (c * 2 + 1) (by omega) (by omega)
      have e : c * 2 + 1 = 2 * c + 1 := by omega
      rw [e] at hj2 hj3 hj4 ⊢
      refine ⟨j + 1, by omega, ?_, ?_, ?_⟩
      · rw [growthTerm_succ_left]
        exact hj2
      · rw [growthTerm_succ_left]
        exact hj3
      · intro i hi1 hi2
        obtain ⟨i2, rfl⟩ : ∃ i2, i = i2 + 1 := ⟨i - 1, by omega⟩
        rw [growthTerm_succ_left]
        by_cases hz : i2 = 0
        · subst hz
          simp only [growthTerm]
          omega
        · exact hj4 i2 (by omega) (by omega)
    · rw [if_neg hc]
      refine ⟨1, Nat.le_refl _, ?_, ?_, ?_⟩
      · simp only [growthTerm]
        omega
      · simp only [growthTerm]
        omega
      · intro i hi1 hi2
        omega

theorem Inv.insert_absent {N : Nat} {t : ADS_set Key} (hi : Inv hasher N t) {key : Key}
    (hc : t.count hasher key = 0) (f : Nat) :
    ∃ t1, t.insert hasher (f + 2) key = some (t1, t1.find hasher key, true) ∧
      t1.curr_size = t.curr_size + 1 ∧
      (t.curr_size < 2 * t.table_size + 1 → t1.table_size = t.table_size) ∧
      (¬ (t.curr_size < 2 * t.table_size + 1) → t1.table_size = 2 * t.table_size + 1) := by
  have hk := (hi.wf.count_eq_zero_iff hasher key).mp hc
  have heq := insert__eq hasher hi key f
  obtain ⟨t1, h1, _, _, hs, _⟩ := hi.insert_ hasher hk f
  refine ⟨t1, ?_, hs, ?_, ?_⟩
  · rw [ADS_set.insert_of_not_mem hasher hi.wf hk, h1]
    rfl
  · intro hlt
    rw [heq, if_pos hlt] at h1
    cases h1
    rfl
  · intro hlt
    rw [heq, if_neg hlt] at h1
    cases h1
    exact (foldl_prepend_sizes hasher _ _).1

/-- C14. Growth policy: in a reachable table with capacity `c` and size `s`, inserting an
absent key returns a table whose capacity is still `c` if `s + 1 ≤ 2c + 1`; otherwise it is
the first term `c'` of the sequence `2c+1, 2(2c+1)+1, ...` with `2c' ≥ s + 1`, and then it
is odd and strictly larger than `c`. -/
theorem growth_policy (N : Nat) (hN : 1 ≤ N) (t : ADS_set Key) (hr : Reachable hasher N t)
    (key : Key) (hc : t.count hasher key = 0) (fuel : Nat) (hfuel : 2 ≤ fuel) :
    ∃ t1 it, t.insert hasher fuel key = some (t1, it, true) ∧
      (t.size + 1 ≤ 2 * t.table_size + 1 → t1.table_size = t.table_size) ∧
      (¬ (t.size + 1 ≤ 2 * t.table_size + 1) →
        (∃ j, 1 ≤ j ∧ t1.table_size = growthTerm t.table_size j ∧
          t.size + 1 ≤ 2 * growthTerm t.table_size j ∧
          ∀ i, 1 ≤ i → i < j → ¬ (t.size + 1 ≤ 2 * growthTerm t.table_size i)) ∧
        t1.table_size % 2 = 1 ∧ t.table_size < t1.table_size) := by
  obtain ⟨f, rfl⟩ : ∃ f, fuel = f + 2 := ⟨fuel - 2, by omega⟩
  have hi := hr.inv hasher hN
  obtain ⟨t1, h, _, hsame, hgrow⟩ := hi.insert_absent hasher hc f
  have hload := hi.load
  refine ⟨t1, _, h, ?_, ?_⟩
  · intro hle
    exact hsame (by simp only [ADS_set.size] at hle; omega)
  · intro hnle
    simp only [ADS_set.size] at hnle ⊢
    have hcap := hgrow (by omega)
    refine ⟨⟨1, Nat.le_refl _, ?_, ?_, ?_⟩, ?_, ?_⟩
    · rw [hcap]; rfl
    · simp only [growthTerm]; omega
    · intro i hi1 hi2; omega
    · rw [hcap]; omega
    · rw [hcap]; omega

theorem growth_policy_witness :
    1 ≤ 1 ∧ Reachable idHash 1 (⟨[[2, 1, 0]], 1, 3⟩ : ADS_set Nat) ∧
    (⟨[[2, 1, 0]], 1, 3⟩ : ADS_set Nat).count idHash 3 = 0 ∧ 2 ≤ 2 ∧
    (⟨[[2, 1, 0]], 1, 3⟩ : ADS_set Nat).insert idHash 2 3
      = some (⟨[[0, 3], [1], [2]], 3, 4⟩, ⟨[3], 0, 3⟩, true) ∧
    ∃ t1 it, (⟨[[2, 1, 0]], 1, 3⟩ : ADS_set Nat).insert idHash 2 3 = some (t1, it, true) ∧
      ((⟨[[2, 1, 0]], 1, 3⟩ : ADS_set Nat).size + 1
          ≤ 2 * (⟨[[2, 1, 0]], 1, 3⟩ : ADS_set Nat).table_size + 1 →
        t1.table_size = (⟨[[2, 1, 0]], 1, 3⟩ : ADS_set Nat).table_size) ∧
      (¬ ((⟨[[2, 1, 0]], 1, 3⟩ : ADS_set Nat).size + 1
          ≤ 2 * (⟨[[2, 1, 0]], 1, 3⟩ : ADS_set Nat).table_size + 1) →
        (∃ j, 1 ≤ j ∧
          t1.table_size = growthTerm (⟨[[2, 1, 0]], 1, 3⟩ : ADS_set Nat).table_size j ∧
          (⟨[[2, 1, 0]], 1, 3⟩ : ADS_set Nat).size + 1
            ≤ 2 * growthTerm (⟨[[2, 1, 0]], 1, 3⟩ : ADS_set Nat).table_size j ∧
          ∀ i, 1 ≤ i → i < j → ¬ ((⟨[[2, 1, 0]], 1, 3⟩ : ADS_set Nat).size + 1
            ≤ 2 * growthTerm (⟨[[2, 1, 0]], 1, 3⟩ : ADS_set Nat).table_size i)) ∧
        t1.table_size % 2 = 1 ∧
        (⟨[[2, 1, 0]], 1, 3⟩ : ADS_set Nat).table_size < t1.table_size) :=
  ⟨by decide, @Reachable.ctor_ilist Nat _ idHash 1 2 [0, 1, 2] _ (by decide), by decide,
    by decide, by decide,
    growth_policy idHash 1 (by decide) _
      (@Reachable.ctor_ilist Nat _ idHash 1 2 [0, 1, 2] _ (by decide)) 3 (by decide) 2
      (by decide)⟩

/-- C18. Load bound: in every table reachable from a default-constructed one (`N ≥ 1`),
`size() ≤ 2 * capacity + 1`. -/
theorem load_bound (N : Nat) (hN : 1 ≤ N) (t : ADS_set Key) (hr : Reachable hasher N t) :
    t.size ≤ 2 * t.table_size + 1 :=
  (hr.inv hasher hN).load

theorem load_bound_witness :
    1 ≤ 1 ∧ Reachable idHash 1 (⟨[[2, 1, 0]], 1, 3⟩ : ADS_set Nat) ∧
    (⟨[[2, 1, 0]], 1, 3⟩ : ADS_set Nat).size
      ≤ 2 * (⟨[[2, 1, 0]], 1, 3⟩ : ADS_set Nat).table_size + 1 :=
  ⟨by decide, @Reachable.ctor_ilist Nat _ idHash 1 2 [0, 1, 2] _ (by decide),
    load_bound idHash 1 (by decide) _
      (@Reachable.ctor_ilist Nat _ idHash 1 2 [0, 1, 2] _ (by decide))⟩

theorem CapForm.initial (N : Nat) : CapForm N N :=
  ⟨0, by simp⟩

theorem CapForm.grow {N c : Nat} (h : CapForm N c) : CapForm N (2 * c + 1) := by
  obtain ⟨k, hk⟩ := h
  refine ⟨k + 1, ?_⟩
  have e : 2 ^ (k + 1) * (N + 1) = 2 * (2 ^ k * (N + 1)) := by ring
  rw [e, ← hk]
  omega

theorem Inv.insert__cap {N : Nat} {t t1 : ADS_set Key} (hi : Inv hasher N t) {key : Key}
    {fuel : Nat} (h : t.insert_ hasher fuel key = some t1) :
    t1.table_size = t.table_size ∨ t1.table_size = 2 * t.table_size + 1 := by
  have h3 := insert__mono_le hasher (Nat.le_add_right fuel 2) t t1 key h
  rw [insert__eq hasher hi key fuel] at h3
  by_cases hlt : t.curr_size < 2 * t.table_size + 1
  · rw [if_pos hlt] at h3
    cases h3
    exact Or.inl rfl
  · rw [if_neg hlt] at h3
    cases h3
    exact Or.inr (foldl_prepend_sizes hasher _ _).1

theorem Inv.insert__capForm {N : Nat} {t t1 : ADS_set Key} (hi : Inv hasher N t) {key : Key}
    {fuel : Nat} (h : t.insert_ hasher fuel key = some t1) (hc : CapForm N t.table_size) :
    CapForm N t1.table_size := by
  rcases hi.insert__cap hasher h with e | e
  · rw [e]; exact hc
  · rw [e]; exact hc.grow

theorem Inv.insert_ilist_capForm {N : Nat} {fuel : Nat} (l : List Key) {t t1 : ADS_set Key}
    (hi : Inv hasher N t) (h : t.insert_ilist hasher fuel l = some t1)
    (hc : CapForm N t.table_size) : CapForm N t1.table_size := by
  induction l generalizing t with
  | nil =>
    simp only [ADS_set.insert_ilist, Option.some.injEq] at h
    subst h
    exact hc
  | cons k rest ih =>
    rw [ADS_set.insert_ilist] at h
    by_cases hcount : t.count hasher k = 0
    · rw [if_pos hcount] at h
      have hk := (hi.wf.count_eq_zero_iff hasher k).mp hcount
      cases h2 : t.insert_ hasher fuel k with
      | none => rw [h2] at h; simp at h
      | some t2 =>
        rw [h2] at h
        exact ih (hi.insert__of_some hasher hk h2).1 h (hi.insert__capForm hasher h2 hc)
    · rw [if_neg hcount] at h
      exact ih hi h hc

theorem Inv.foldlM_insert__capForm {N : Nat} {fuel : Nat} (vect : List Key)
    {t t1 : ADS_set Key} (hi : Inv hasher N t) (hnd : vect.Nodup)
    (hdis : ∀ k ∈ vect, k ∉ t.keys)
    (h : vect.foldlM (fun a k => a.insert_ hasher fuel k) t = some t1)
    (hc : CapForm N t.table_size) : CapForm N t1.table_size := by
  induction vect generalizing t with
  | nil =>
    simp only [List.foldlM_nil, Option.pure_def, Option.some.injEq] at h
    subst h
    exact hc
  | cons k rest ih =>
    rw [List.foldlM_cons] at h
    obtain ⟨hnk, hndr⟩ := List.nodup_cons.mp hnd
    have hk := hdis k (List.mem_cons_self _ _)
    cases h2 : t.insert_ hasher fuel k with
    | none => rw [h2] at h; simp at h
    | some t2 =>
      rw [h2] at h
      obtain ⟨hi2, hp, _, _⟩ := hi.insert__of_some hasher hk h2
      refine ih hi2 hndr ?_ h (hi.insert__capForm hasher h2 hc)
      intro q hq hmem
      rcases List.mem_cons.mp (hp.subset hmem) with rfl | h3
      · exact hnk hq
      · exact hdis q (List.mem_cons_of_mem _ hq) h3

theorem Reachable.capForm {N : Nat} (hN : 0 < N) {t : ADS_set Key}
    (hr : Reachable hasher N t) : CapForm N t.table_size := by
  have hfresh := @Inv.fresh_inv Key _ hasher N hN
  induction hr with
  | ctor h =>
    rw [ADS_set.ctor_eq] at h
    cases h
    exact CapForm.initial N
  | ctor_ilist h =>
    rw [ADS_set.ctor_ilist, ADS_set.ctor_eq] at h
    exact hfresh.insert_ilist_capForm hasher _ h (CapForm.initial N)
  | ctor_range h =>
    rw [ADS_set.ctor_range, ADS_set.ctor_eq] at h
    simp only [Option.some_bind, ADS_set.insert_range_eq] at h
    exact hfresh.insert_ilist_capForm hasher _ h (CapForm.initial N)
  | ctor_copy ho h _ =>
    have hio := ho.inv hasher hN
    rw [ADS_set.ctor_copy, ADS_set.ctor_eq, ADS_set.range_for_eq _ hio.wf.len] at h
    exact hfresh.foldlM_insert__capForm hasher _ hio.wf.nodup
      (by intro k _; simp [ADS_set.keys]) h (CapForm.initial N)
  | assign _ ho h _ _ =>
    have hio := ho.inv hasher hN
    rw [ADS_set.assign, ADS_set.range_for_eq _ hio.wf.len] at h
    simp only [Option.some_bind, ADS_set.foldlM_insert_eq] at h
    exact hfresh.insert_ilist_capForm hasher _ h (CapForm.initial N)
  | assign_ilist _ h _ =>
    exact hfresh.insert_ilist_capForm hasher _ h (CapForm.initial N)
  | @insert fuel t key r ht h ih =>
    have hi := ht.inv hasher hN
    by_cases hk : key ∈ t.keys
    · rw [ADS_set.insert_of_mem hasher hi.wf hk] at h
      cases h
      exact ih
    · rw [ADS_set.insert_of_not_mem hasher hi.wf hk] at h
      cases h2 : t.insert_ hasher fuel key with
      | none => rw [h2] at h; simp at h
      | some t2 =>
        rw [h2] at h
        cases h
        exact hi.insert__capForm hasher h2 ih
  | insert_ilist ht h ih => exact (ht.inv hasher hN).insert_ilist_capForm hasher _ h ih
  | insert_range ht h ih =>
    rw [ADS_set.insert_range_eq] at h
    exact (ht.inv hasher hN).insert_ilist_capForm hasher _ h ih
  | clear _ _ => exact CapForm.initial N
  | @erase t key ht ih =>
    rw [((ht.inv hasher hN).erase hasher key).2.2.2.2.1]
    exact ih
  | swap _ _ _ ih2 => exact ih2

/-- C19. Single-step growth: in every reachable table with capacity `c`, `insert` returns a
table whose capacity differs from `c` exactly when its size is `2c + 2`, and then the new
capacity is `2c + 1`: the do-while loop of `reserve()` stops after its first pass, because
its condition `(2c + 1) * 2 < size` is false there. Hence the capacity of every reachable
table is `2^k * (N + 1) - 1` for some `k`. -/
theorem single_step_growth (N : Nat) (hN : 1 ≤ N) (t : ADS_set Key)
    (hr : Reachable hasher N t) (fuel : Nat) (hfuel : 2 ≤ fuel) :
    (∃ k, t.table_size = 2 ^ k * (N + 1) - 1) ∧
    ∀ key, ∃ r, t.insert hasher fuel key = some r ∧
      (r.1.table_size ≠ t.table_size ↔ r.1.size = 2 * t.table_size + 2) ∧
      (r.1.table_size ≠ t.table_size →
        r.1.table_size = 2 * t.table_size + 1 ∧
        growLoop r.1.size t.table_size r.1.size = 2 * t.table_size + 1 ∧
        ¬ ((t.table_size * 2 + 1) * 2 < r.1.size)) := by
  obtain ⟨f, rfl⟩ : ∃ f, fuel = f + 2 := ⟨fuel - 2, by omega⟩
  have hi := hr.inv hasher hN
  have hload := hi.load
  have hpos := hi.wf.pos
  constructor
  · obtain ⟨k, hk⟩ := hr.capForm hasher hN
    exact ⟨k, by omega⟩
  · intro key
    by_cases hc : t.count hasher key = 0
    · obtain ⟨t1, h, hs, hsame, hgrow⟩ := hi.insert_absent hasher hc f
      refine ⟨_, h, ?_, ?_⟩
      · simp only [ADS_set.size, hs]
        by_cases hlt : t.curr_size < 2 * t.table_size + 1
        · rw [hsame hlt]
          constructor
          · intro h2; exact absurd rfl h2
          · intro h2; omega
        · rw [hgrow hlt]
          constructor
          · intro _; omega
          · intro _; omega
      · intro hne
        simp only at hne
        by_cases hlt : t.curr_size < 2 * t.table_size + 1
        · exact absurd (hsame hlt) hne
        · have hsz : t1.size = 2 * t.table_size + 2 := by
            simp only [ADS_set.size, hs]; omega
          simp only
          rw [hsz]
          exact ⟨hgrow hlt, growLoop_once t.table_size, by omega⟩
    · have hk : key ∈ t.keys := by
        by_contra hk
        exact hc ((hi.wf.count_eq_zero_iff hasher key).mpr hk)
      refine ⟨_, ADS_set.insert_of_mem hasher hi.wf hk _, ?_, ?_⟩
      · simp only [ADS_set.size]
        constructor
        · intro h2; exact absurd rfl h2
        · intro h2; omega
      · intro hne
        exact absurd rfl hne

theorem single_step_growth_witness :
    1 ≤ 1 ∧ Reachable idHash 1 (⟨[[2, 1, 0]], 1, 3⟩ : ADS_set Nat) ∧ 2 ≤ 2 ∧
    (⟨[[2, 1, 0]], 1, 3⟩ : ADS_set Nat).insert idHash 2 3
      = some (⟨[[0, 3], [1], [2]], 3, 4⟩, ⟨[3], 0, 3⟩, true) ∧
    ∃ k, (⟨[[2, 1, 0]], 1, 3⟩ : ADS_set Nat).table_size = 2 ^ k * (1 + 1) - 1 :=
  ⟨by decide, @Reachable.ctor_ilist Nat _ idHash 1 2 [0, 1, 2] _ (by decide), by decide,
    by decide,
    (single_step_growth idHash 1 (by decide) _
      (@Reachable.ctor_ilist Nat _ idHash 1 2 [0, 1, 2] _ (by decide)) 2 (by decide)).1⟩

theorem keys_prepend_of_len {t : ADS_set Key} (hlen : t.table.length = t.table_size)
    (hpos : 0 < t.table_size) (key : Key) :
    (t.prepend hasher key).keys.Perm (key :: t.keys) := by
  have hlt : t.h hasher key < t.table.length := by
    rw [hlen]
    exact Nat.mod_lt _ hpos
  have h := flatten_perm_of_set (t.prepend hasher key).table (t.h hasher key) key
    (t.head (t.h hasher key)) (by simpa [ADS_set.prepend] using hlt)
    (by simp [ADS_set.prepend, getD_set_nil, hlt, ADS_set.head])
  have h2 : (t.prepend hasher key).table.set (t.h hasher key) (t.head (t.h hasher key))
      = t.table := by
    simp only [ADS_set.prepend, List.set_set, ADS_set.head]
    apply List.ext_getElem?
    intro j
    rw [List.getElem?_set]
    by_cases hj : t.h hasher key = j
    · subst hj
      simp [hlt, List.getD_eq_getElem _ _ hlt]
    · simp [hj]
  rw [h2] at h
  exact h

theorem foldl_prepend_keys (vect : List Key) (t0 : ADS_set Key)
    (hlen : t0.table.length = t0.table_size) (hpos : 0 < t0.table_size) :
    (vect.foldl (fun a k => a.prepend hasher k) t0).keys.Perm (vect ++ t0.keys) := by
  induction vect generalizing t0 with
  | nil => exact List.Perm.refl _
  | cons k rest ih =>
    have hp := keys_prepend_of_len hasher hlen hpos k
    have := ih (t0.prepend hasher k) (by simpa [ADS_set.prepend] using hlen) hpos
    exact this.trans ((List.Perm.append_left rest hp).trans List.perm_middle)

/-- C15. Rehash preserves content and does not recurse: on a table holding `s` keys,
`rehash(n)` with `2n ≥ s` returns (a call-depth budget of one is enough), at none of its
reinsertions is the growth trigger `table_size * 2 + 1 < curr_size` true, and the table it
returns has capacity exactly `n`, size exactly `s`, and exactly the keys stored before. When
`reserve()` finds `table_size * 2 < curr_size` it calls `rehash(n)` with such an `n`. -/
theorem rehash_preserves (t : ADS_set Key) (fuel : Nat)
    (hlen : t.table.length = t.table_size) (hsize : t.size = t.keys.length)
    (hfuel : 1 ≤ fuel) :
    (∀ n, t.size ≤ 2 * n →
      ∃ t1, t.rehash hasher fuel n = some t1 ∧ t1.table_size = n ∧ t1.size = t.size ∧
        (∀ q, q ∈ t1.keys ↔ q ∈ t.keys) ∧
        ∀ before k after, t.keys = before ++ k :: after →
          ¬ (((ADS_set.reinserted hasher n before).prepend hasher k).table_size * 2 + 1
              < ((ADS_set.reinserted hasher n before).prepend hasher k).curr_size)) ∧
    (t.table_size * 2 < t.curr_size →
      t.reserve hasher fuel
        = t.rehash hasher fuel (growLoop t.curr_size t.table_size t.curr_size) ∧
      t.size ≤ 2 * growLoop t.curr_size t.table_size t.curr_size) := by
  obtain ⟨f, rfl⟩ : ∃ f, fuel = f + 1 := ⟨fuel - 1, by omega⟩
  constructor
  · intro n hn
    simp only [ADS_set.size] at hsize hn
    have hsz := foldl_prepend_sizes hasher t.keys (⟨List.replicate n [], n, 0⟩ : ADS_set Key)
    refine ⟨ADS_set.reinserted hasher n t.keys, ?_, hsz.1, ?_, ?_, ?_⟩
    · rw [ADS_set.rehash, ADS_set.rehashWith, flatMap_head_eq_keys hlen]
      exact foldlM_insert__eq hasher f t.keys _ (by simp only [← hsize]; omega)
    · simp only [ADS_set.size, ADS_set.reinserted, hsz.2, hsize]
      omega
    · intro q
      by_cases hn0 : n = 0
      · have : t.keys = [] := List.eq_nil_of_length_eq_zero (by omega)
        rw [this]
        simp [hn0, ADS_set.keys, ADS_set.reinserted]
      · have hp := foldl_prepend_keys hasher t.keys
          (⟨List.replicate n [], n, 0⟩ : ADS_set Key) (by simp) (by simp only; omega)
        rw [ADS_set.reinserted, hp.mem_iff]
        simp [ADS_set.keys]
    · intro before k after hk
      have hb := foldl_prepend_sizes hasher before
        (⟨List.replicate n [], n, 0⟩ : ADS_set Key)
      have hl : before.length + 1 ≤ t.keys.length := by
        rw [hk]
        simp
      have e1 : ((ADS_set.reinserted hasher n before).prepend hasher k).table_size = n :=
        hb.1
      have e2 : ((ADS_set.reinserted hasher n before).prepend hasher k).curr_size
          = before.length + 1 := by
        show (ADS_set.reinserted hasher n before).curr_size + 1 = _
        rw [ADS_set.reinserted, hb.2]
        simp
      rw [e1, e2]
      omega
  · intro hlt
    refine ⟨by rw [reserve_eq, if_pos hlt], ?_⟩
    have := growLoop_exit t.curr_size t.table_size t.curr_size (by omega) (by omega)
    simp only [ADS_set.size]
    omega

theorem rehash_preserves_witness :
    (⟨[[3, 2, 1, 0]], 1, 4⟩ : ADS_set Nat).table.length
      = (⟨[[3, 2, 1, 0]], 1, 4⟩ : ADS_set Nat).table_size ∧
    (⟨[[3, 2, 1, 0]], 1, 4⟩ : ADS_set Nat).size
      = (⟨[[3, 2, 1, 0]], 1, 4⟩ : ADS_set Nat).keys.length ∧
    1 ≤ 1 ∧
    (⟨[[3, 2, 1, 0]], 1, 4⟩ : ADS_set Nat).reserve idHash 1
      = some ⟨[[0, 3], [1], [2]], 3, 4⟩ ∧
    ((⟨[[3, 2, 1, 0]], 1, 4⟩ : ADS_set Nat).table_size * 2
        < (⟨[[3, 2, 1, 0]], 1, 4⟩ : ADS_set Nat).curr_size →
      (⟨[[3, 2, 1, 0]], 1, 4⟩ : ADS_set Nat).reserve idHash 1
        = (⟨[[3, 2, 1, 0]], 1, 4⟩ : ADS_set Nat).rehash idHash 1 (growLoop 4 1 4) ∧
      (⟨[[3, 2, 1, 0]], 1, 4⟩ : ADS_set Nat).size ≤ 2 * growLoop 4 1 4) :=
  ⟨by decide, by decide, by decide, by decide,
    (rehash_preserves idHash ⟨[[3, 2, 1, 0]], 1, 4⟩ 1 (by decide) (by decide)
      (by decide)).2⟩

theorem Iterator.incLoop_to_next (t : ADS_set Key) (steps : Nat) (it : Iterator Key)
    (j : Nat) (k2 : Key) (next : List Key) (htail : it.n.tail = []) (h1 : it.idx < j)
    (h2 : j < it.sz) (hj : t.head j = k2 :: next)
    (hnil : ∀ m, it.idx < m → m < j → t.head m = []) (hsteps : steps = it.sz - it.idx) :
    Iterator.incLoop t steps it = ⟨k2 :: next, j, it.sz⟩ := by
  induction steps generalizing it with
  | zero => omega
  | succ s ih =>
    rw [Iterator.incLoop, if_pos (by omega), htail]
    simp only
    rw [if_neg (by omega)]
    by_cases e : it.idx + 1 = j
    · rw [e, hj]
    · rw [hnil (it.idx + 1) (by omega) (by omega)]
      simp only
      exact ih { it with idx := it.idx + 1 } htail (by simp only; omega) h2
        (fun m hm1 hm2 => hnil m (by simp only at hm1; omega) hm2) (by simp only; omega)

theorem Iterator.incLoop_to_end (t : ADS_set Key) (steps : Nat) (it : Iterator Key)
    (htail : it.n.tail = []) (h1 : it.idx < it.sz)
    (hnil : ∀ m, it.idx < m → m < it.sz → t.head m = []) (hsteps : steps = it.sz - it.idx) :
    Iterator.incLoop t steps it = ⟨[], it.sz, it.sz⟩ := by
  induction steps generalizing it with
  | zero => omega
  | succ s ih =>
    rw [Iterator.incLoop, if_pos h1, htail]
    simp only
    by_cases e : it.idx + 1 = it.sz
    · rw [if_pos e, e]
    · rw [if_neg e, hnil (it.idx + 1) (by omega) (by omega)]
      simp only
      exact ih { it with idx := it.idx + 1 } htail (by simp only; omega)
        (fun m hm1 hm2 => hnil m (by simp only at hm1; omega) hm2) (by simp only; omega)

/-- C16. Traversal order: in every reachable table the range-based `for` visits the keys of
bucket 0, then bucket 1, ..., up to bucket `capacity - 1`, each chain head to tail;
`begin()` is on the head of the lowest-indexed non-empty bucket and is `end()` when every
bucket is empty; `operator++` moves to the successor within a chain, and on the last entry of
a chain it moves to the head of the next non-empty bucket, however many empty buckets lie
between, or becomes `end()` when there is none. -/
theorem traversal_order (N : Nat) (hN : 1 ≤ N) (t : ADS_set Key)
    (hr : Reachable hasher N t) :
    t.range_for = some ((List.range t.table_size).flatMap (fun i => t.head i)) ∧
    (∀ i k next, i < t.table_size → t.head i = k :: next → (∀ j, j < i → t.head j = []) →
      t.begin = ⟨k :: next, i, t.table_size⟩) ∧
    ((∀ j, j < t.table_size → t.head j = []) → t.begin.eq ADS_set.end_ = true) ∧
    (∀ (it : Iterator Key) k k2 rest, it.idx < it.sz → it.n = k :: k2 :: rest →
      it.inc t = ⟨k2 :: rest, it.idx, it.sz⟩) ∧
    (∀ (it : Iterator Key) k j k2 next, it.n = [k] → it.idx < j → j < it.sz →
      t.head j = k2 :: next → (∀ m, it.idx < m → m < j → t.head m = []) →
      it.inc t = ⟨k2 :: next, j, it.sz⟩) ∧
    (∀ (it : Iterator Key) k, it.n = [k] → it.idx < it.sz →
      (∀ m, it.idx < m → m < it.sz → t.head m = []) →
      (it.inc t).eq ADS_set.end_ = true) := by
  have hi := hr.inv hasher hN
  refine ⟨?_, ?_, ?_, ?_, ?_, ?_⟩
  · rw [flatMap_head_eq_keys hi.wf.len]
    exact t.range_for_eq hi.wf.len
  · intro i k next h1 h2 h3
    exact t.beginLoop_first t.table_size 0 i k next (Nat.zero_le _) (by omega) h2
      (fun j _ hj => h3 j hj)
  · intro h
    rw [ADS_set.begin, t.beginLoop_all_nil t.table_size 0 (fun j _ hj => h j (by omega))]
    rfl
  · intro it k k2 rest h1 h2
    obtain ⟨s, hs⟩ : ∃ s, it.sz - it.idx = s + 1 := ⟨it.sz - it.idx - 1, by omega⟩
    rw [Iterator.inc, hs, Iterator.incLoop, if_pos h1, h2]
    rfl
  · intro it k j k2 next h1 h2 h3 h4 h5
    exact Iterator.incLoop_to_next t _ it j k2 next (by rw [h1]; rfl) h2 h3 h4 h5 rfl
  · intro it k h1 h2 h3
    rw [Iterator.inc, Iterator.incLoop_to_end t _ it (by rw [h1]; rfl) h2 h3 rfl]
    rfl

theorem traversal_order_witness :
    1 ≤ 7 ∧
    Reachable idHash 7 (⟨[[14], [8, 64, 1], [], [], [], [], [6]], 7, 5⟩ : ADS_set Nat) ∧
    (⟨[[14], [8, 64, 1], [], [], [], [], [6]], 7, 5⟩ : ADS_set Nat).range_for
      = some [14, 8, 64, 1, 6] ∧
    (⟨[[14], [8, 64, 1], [], [], [], [], [6]], 7, 5⟩ : ADS_set Nat).range_for
      = some ((List.range 7).flatMap (fun i =>
          (⟨[[14], [8, 64, 1], [], [], [], [], [6]], 7, 5⟩ : ADS_set Nat).head i)) ∧
    Iterator.inc (⟨[[14], [8, 64, 1], [], [], [], [], [6]], 7, 5⟩ : ADS_set Nat) ⟨[1], 1, 7⟩
      = ⟨[6], 6, 7⟩ :=
  ⟨by decide, @Reachable.ctor_ilist Nat _ idHash 7 2 [14, 1, 64, 8, 6] _ (by decide),
    by decide,
    (traversal_order idHash 7 (by decide) _
      (@Reachable.ctor_ilist Nat _ idHash 7 2 [14, 1, 64, 8, 6] _ (by decide))).1,
    by decide⟩

theorem head_prepend (t : ADS_set Key) (key : Key) (i : Nat)
    (hlt : t.h hasher key < t.table.length) :
    (t.prepend hasher key).head i
      = if t.h hasher key = i then key :: t.head i else t.head i := by
  simp only [ADS_set.prepend, ADS_set.head, getD_set_nil]
  by_cases e : t.h hasher key = i
  · subst e
    rw [if_pos ⟨rfl, hlt⟩, if_pos rfl]
  · rw [if_neg (fun h => e h.1), if_neg e]

theorem head_foldl_prepend (vect : List Key) (t0 : ADS_set Key) (i : Nat)
    (hlen : t0.table.length = t0.table_size) (hpos : 0 < t0.table_size) :
    (vect.foldl (fun a k => a.prepend hasher k) t0).head i
      = (vect.filter (fun k => decide (hasher k % t0.table_size = i))).reverse
        ++ t0.head i := by
  induction vect generalizing t0 with
  | nil => simp
  | cons k rest ih =>
    have hlt : t0.h hasher k < t0.table.length := by
      rw [hlen]
      exact Nat.mod_lt _ hpos
    have := ih (t0.prepend hasher k) (by simpa [ADS_set.prepend] using hlen) hpos
    rw [List.foldl_cons, this, head_prepend hasher t0 k i hlt]
    have e : (t0.prepend hasher k).table_size = t0.table_size := rfl
    rw [e, List.filter_cons]
    by_cases hk : hasher k % t0.table_size = i
    · have hk2 : t0.h hasher k = i := hk
      simp [hk, hk2]
    · have hk2 : ¬ t0.h hasher k = i := hk
      simp [hk, hk2]

theorem WF.insert_ilist_eq_foldl (f : Nat) (l : List Key) {t : ADS_set Key}
    (hw : WF hasher t) (hnd : l.Nodup) (hdis : ∀ k ∈ l, k ∉ t.keys)
    (hload : t.curr_size + l.length ≤ 2 * t.table_size + 1) :
    t.insert_ilist hasher (f + 1) l = some (l.foldl (fun a k => a.prepend hasher k) t) := by
  induction l generalizing t with
  | nil => rfl
  | cons k rest ih =>
    simp only [List.length_cons] at hload
    obtain ⟨hnk, hndr⟩ := List.nodup_cons.mp hnd
    have hk := hdis k (List.mem_cons_self _ _)
    have hp := hw.keys_prepend hasher k
    rw [ADS_set.insert_ilist, if_pos ((hw.count_eq_zero_iff hasher k).mpr hk),
      insert__of_not_grow hasher f t k (by omega)]
    refine ih (hw.prepend hasher hk) hndr ?_ (by simp only [ADS_set.prepend]; omega)
    intro q hq hmem
    rcases List.mem_cons.mp (hp.subset hmem) with rfl | h
    · exact hnk hq
    · exact hdis q (List.mem_cons_of_mem _ hq) h

/-- C17 as stated fails: built from a default-constructed table of capacity 7 by inserting
the distinct keys 15, 0, 1, ..., 14 in this order, the table has grown to capacity 15 and the
keys 0 and 15 share a bucket whose chain is `[15, 0]`: key 0 was inserted after key 15 but
follows it, and the head of the chain is not the key of the bucket inserted last. -/
theorem chain_order_counterexample :
    [15, 0, 1, 2, 3, 4, 5, 6, 7, 8, 9, 10, 11, 12, 13, 14].Nodup ∧
    ∃ t0 t, ADS_set.ctor idHash 2 7 = some t0 ∧
      t0.run idHash 2
        ([15, 0, 1, 2, 3, 4, 5, 6, 7, 8, 9, 10, 11, 12, 13, 14].map Call.insert) = some t ∧
      t.h idHash 0 = t.h idHash 15 ∧ t.head (t.h idHash 0) = [15, 0] :=
  ⟨by decide, _, _, rfl, rfl, by decide, by decide⟩

theorem ADS_set.run_append (fuel : Nat) (t : ADS_set Key) (l1 l2 : List (Call Key)) :
    t.run hasher fuel (l1 ++ l2)
      = (t.run hasher fuel l1).bind (fun tm => tm.run hasher fuel l2) := by
  induction l1 generalizing t with
  | nil => rfl
  | cons c rest ih =>
    cases c with
    | insert key =>
      rw [List.cons_append, ADS_set.run, ADS_set.run]
      cases h : t.insert hasher fuel key with
      | none => rfl
      | some r => exact ih r.1
    | erase key =>
      rw [List.cons_append, ADS_set.run, ADS_set.run]
      exact ih _

theorem Inv.inserts_since_rehash {N : Nat} {t : ADS_set Key} (hi : Inv hasher N t)
    (keys : List Key) (hnd : keys.Nodup) (habs : ∀ k ∈ keys, t.count hasher k = 0)
    (hload : t.size + keys.length ≤ 2 * t.table_size + 1) (f : Nat) :
    ∃ t1, t.run hasher (f + 1) (keys.map Call.insert) = some t1 ∧
      t1.table_size = t.table_size ∧
      (∀ i, t1.head i
        = (keys.filter (fun k => decide (t.h hasher k = i))).reverse ++ t.head i) ∧
      (∀ x ∈ keys, ∀ y ∈ t.head (t1.h hasher x),
        ∃ p q r, t1.head (t1.h hasher x) = p ++ x :: (q ++ y :: r)) ∧
      (∀ a y b x c, keys = a ++ y :: (b ++ x :: c) → t1.h hasher x = t1.h hasher y →
        ∃ p q r, t1.head (t1.h hasher x) = p ++ x :: (q ++ y :: r)) ∧
      (∀ a x c, keys = a ++ x :: c → (∀ z ∈ c, t1.h hasher z ≠ t1.h hasher x) →
        ∃ r, t1.head (t1.h hasher x) = x :: r) := by
  have hw := hi.wf
  have hrun := hw.insert_ilist_eq_foldl hasher f keys hnd
    (fun k hk => (hw.count_eq_zero_iff hasher k).mp (habs k hk)) hload
  have hsz := (foldl_prepend_sizes hasher keys t).1
  have hhead : ∀ i, (keys.foldl (fun a k => a.prepend hasher k) t).head i
      = (keys.filter (fun k => decide (t.h hasher k = i))).reverse ++ t.head i :=
    fun i => head_foldl_prepend hasher keys t i hw.len hw.pos
  have hh : ∀ k, (keys.foldl (fun a k => a.prepend hasher k) t).h hasher k = t.h hasher k := by
    intro k
    simp only [ADS_set.h, hsz]
  refine ⟨_, ?_, hsz, hhead, ?_, ?_, ?_⟩
  · rw [ADS_set.run_map_insert]
    exact hrun
  · intro x hx y hy
    rw [hh] at hy ⊢
    rw [hhead]
    have hx2 : x ∈ (keys.filter (fun k => decide (t.h hasher k = t.h hasher x))).reverse := by
      rw [List.mem_reverse, List.mem_filter]
      exact ⟨hx, by simp⟩
    obtain ⟨p, q, hpq⟩ := List.append_of_mem hx2
    obtain ⟨q2, r, hqr⟩ := List.append_of_mem hy
    refine ⟨p, q ++ q2, r, ?_⟩
    rw [hpq, hqr]
    simp
  · intro a y b x c hk hxy
    rw [hh, hh] at hxy
    rw [hh, hhead]
    refine ⟨(c.filter (fun k => decide (t.h hasher k = t.h hasher x))).reverse,
      (b.filter (fun k => decide (t.h hasher k = t.h hasher x))).reverse,
      (a.filter (fun k => decide (t.h hasher k = t.h hasher x))).reverse ++ t.head (t.h hasher x),
      ?_⟩
    rw [hk]
    simp [List.filter_append, List.filter_cons, hxy]
  · intro a x c hk hc
    rw [hh, hhead]
    refine ⟨(a.filter (fun k => decide (t.h hasher k = t.h hasher x))).reverse
      ++ t.head (t.h hasher x), ?_⟩
    rw [hk]
    have hcnil : c.filter (fun k => decide (t.h hasher k = t.h hasher x)) = [] := by
      rw [List.filter_eq_nil_iff]
      intro z hz
      have := hc z hz
      rw [hh, hh] at this
      simpa using this
    simp [List.filter_append, List.filter_cons, hcnil]

/-- C17, amended. Most-recently-inserted first since the last rehash. Part one: on every
reachable table `t`, a sequence of inserts of distinct keys absent from `t` that triggers no
rehash (`size() +` the number of keys `≤ 2 * capacity + 1`) leaves the capacity unchanged and
links, in front of the chain `t` had in each bucket, the new keys of that bucket in the
reverse of their insertion order; so a key inserted by the sequence precedes every key of its
bucket that was stored before it, whether `t` held it or the sequence inserted it earlier, and
the key of a bucket inserted last is the head of its chain. Part two: for every table built
from a default-constructed table by inserting distinct keys `pre` and then `post`, where no
insert of `post` triggers a rehash (the inserts of `pre` may), a key of `post` precedes in
its chain every stored key of its bucket inserted before it. -/
theorem chain_order (N : Nat) (hN : 1 ≤ N) (fuel : Nat) (hfuel : 2 ≤ fuel) :
    (∀ (t : ADS_set Key) (keys : List Key), Reachable hasher N t → keys.Nodup →
      (∀ k ∈ keys, t.count hasher k = 0) → t.size + keys.length ≤ 2 * t.table_size + 1 →
      ∃ t1, t.run hasher fuel (keys.map Call.insert) = some t1 ∧
        t1.table_size = t.table_size ∧
        (∀ i, t1.head i
          = (keys.filter (fun k => decide (t.h hasher k = i))).reverse ++ t.head i) ∧
        (∀ x ∈ keys, ∀ y ∈ t.head (t1.h hasher x),
          ∃ p q r, t1.head (t1.h hasher x) = p ++ x :: (q ++ y :: r)) ∧
        (∀ a y b x c, keys = a ++ y :: (b ++ x :: c) → t1.h hasher x = t1.h hasher y →
          ∃ p q r, t1.head (t1.h hasher x) = p ++ x :: (q ++ y :: r)) ∧
        (∀ a x c, keys = a ++ x :: c → (∀ z ∈ c, t1.h hasher z ≠ t1.h hasher x) →
          ∃ r, t1.head (t1.h hasher x) = x :: r)) ∧
    (∀ pre post : List Key, (pre ++ post).Nodup →
      ∃ t0 tm, ADS_set.ctor hasher fuel N = some t0 ∧
        t0.run hasher fuel (pre.map Call.insert) = some tm ∧
        (tm.size + post.length ≤ 2 * tm.table_size + 1 →
          ∃ t1, t0.run hasher fuel ((pre ++ post).map Call.insert) = some t1 ∧
            t1.table_size = tm.table_size ∧
            (∀ y ∈ pre, ∀ x ∈ post, t1.h hasher x = t1.h hasher y →
              ∃ p q r, t1.head (t1.h hasher x) = p ++ x :: (q ++ y :: r)) ∧
            (∀ a y b x c, post = a ++ y :: (b ++ x :: c) →
              t1.h hasher x = t1.h hasher y →
              ∃ p q r, t1.head (t1.h hasher x) = p ++ x :: (q ++ y :: r)) ∧
            (∀ a x c, post = a ++ x :: c → (∀ z ∈ c, t1.h hasher z ≠ t1.h hasher x) →
              ∃ r, t1.head (t1.h hasher x) = x :: r))) := by
  obtain ⟨f, rfl⟩ : ∃ f, fuel = f + 2 := ⟨fuel - 2, by omega⟩
  constructor
  · intro t keys hr hnd habs hload
    exact (hr.inv hasher hN).inserts_since_rehash hasher keys hnd habs hload (f + 1)
  · intro pre post hnd
    obtain ⟨hndpre, hndpost, hdisj⟩ := List.nodup_append.mp hnd
    obtain ⟨tm, hm, him, hmem, _⟩ :=
      (@Inv.fresh_inv Key _ hasher N hN).insert_ilist_spec hasher f pre
    have hmem2 : ∀ q, q ∈ tm.keys ↔ q ∈ pre := by
      intro q
      rw [hmem q]
      simp [ADS_set.keys]
    refine ⟨_, tm, ADS_set.ctor_eq hasher _ N, by rw [ADS_set.run_map_insert]; exact hm, ?_⟩
    intro hload
    have habs : ∀ k ∈ post, tm.count hasher k = 0 := by
      intro k hk
      rw [him.wf.count_eq_zero_iff hasher k, hmem2 k]
      exact fun hp => hdisj hp hk
    obtain ⟨t1, h1, hcap, _, hold, hnew, hhead⟩ :=
      him.inserts_since_rehash hasher post hndpost habs hload (f + 1)
    refine ⟨t1, ?_, hcap, ?_, hnew, hhead⟩
    · rw [List.map_append, ADS_set.run_append, ADS_set.run_map_insert, hm]
      exact h1
    · intro y hy x hx hxy
      refine hold x hx y ?_
      have hy2 : y ∈ tm.head (tm.h hasher y) :=
        (him.wf.mem_keys_iff hasher y).mp ((hmem2 y).mpr hy)
      have e : tm.h hasher y = t1.h hasher x := by
        rw [hxy]
        simp only [ADS_set.h, hcap]
      rw [← e]
      exact hy2

theorem chain_order_witness :
    1 ≤ 7 ∧ 2 ≤ 2 ∧
    Reachable idHash 7 (⟨[[15, 0], [1], [2], [3], [4], [5], [6], [7], [8], [9], [10], [11],
      [12], [13], [14]], 15, 16⟩ : ADS_set Nat) ∧
    (⟨[[15, 0], [1], [2], [3], [4], [5], [6], [7], [8], [9], [10], [11],
      [12], [13], [14]], 15, 16⟩ : ADS_set Nat).run idHash 2 ([30, 45].map Call.insert)
      = some ⟨[[45, 30, 15, 0], [1], [2], [3], [4], [5], [6], [7], [8], [9], [10], [11],
          [12], [13], [14]], 15, 18⟩ ∧
    ∃ t1, (⟨[[15, 0], [1], [2], [3], [4], [5], [6], [7], [8], [9], [10], [11],
        [12], [13], [14]], 15, 16⟩ : ADS_set Nat).run idHash 2 ([30, 45].map Call.insert)
        = some t1 ∧
      t1.table_size = 15 ∧
      (∀ i, t1.head i
        = ([30, 45].filter (fun k => decide ((⟨[[15, 0], [1], [2], [3], [4], [5], [6], [7],
            [8], [9], [10], [11], [12], [13], [14]], 15, 16⟩ : ADS_set Nat).h idHash k
              = i))).reverse
          ++ (⟨[[15, 0], [1], [2], [3], [4], [5], [6], [7], [8], [9], [10], [11],
            [12], [13], [14]], 15, 16⟩ : ADS_set Nat).head i) ∧
      (∀ x ∈ [30, 45], ∀ y ∈ (⟨[[15, 0], [1], [2], [3], [4], [5], [6], [7], [8], [9], [10],
          [11], [12], [13], [14]], 15, 16⟩ : ADS_set Nat).head (t1.h idHash x),
        ∃ p q r, t1.head (t1.h idHash x) = p ++ x :: (q ++ y :: r)) ∧
      (∀ a y b x c, [30, 45] = a ++ y :: (b ++ x :: c) → t1.h idHash x = t1.h idHash y →
        ∃ p q r, t1.head (t1.h idHash x) = p ++ x :: (q ++ y :: r)) ∧
      (∀ a x c, [30, 45] = a ++ x :: c → (∀ z ∈ c, t1.h idHash z ≠ t1.h idHash x) →
        ∃ r, t1.head (t1.h idHash x) = x :: r) :=
  ⟨by decide, by decide,
    @Reachable.ctor_ilist Nat _ idHash 7 2
      [15, 0, 1, 2, 3, 4, 5, 6, 7, 8, 9, 10, 11, 12, 13, 14] _ (by decide),
    by decide,
    (chain_order idHash 7 (by decide) 2 (by decide)).1 _ [30, 45]
      (@Reachable.ctor_ilist Nat _ idHash 7 2
        [15, 0, 1, 2, 3, 4, 5, 6, 7, 8, 9, 10, 11, 12, 13, 14] _ (by decide))
      (by decide) (by decide) (by decide)⟩

end Lemmas

end ADS
